import Mathlib

set_option maxRecDepth 2000000
set_option maxHeartbeats 40000000

/-!
Shallow embedding of the RustGraphIsomorphism core: the k-WL canonical
signature engine (`src/k_wl.rs`), the bucketed deduplication store and the
recursive graph generator with its family filter (`src/generate_graphs.rs`).

Graphs (petgraph `UnGraph<(), ()>`) are embedded as a node count `n` (node
identifiers are the dense integers `0 .. n-1`, assigned in creation order)
together with the list of edges in insertion order.  Machine integers
(`usize`, `isize`) become `Nat` and `Int`; the only fallible operations are
the `panic!` guards, which become `Option` at the public entry points.
-/

structure SGraph where
  n : Nat
  edges : List (Nat × Nat)
deriving DecidableEq, Repr

/-- Adjacency test, embedding petgraph `contains_edge` on an undirected
graph: an edge is present in either orientation. -/
def adjB (g : SGraph) (a b : Nat) : Bool :=
  g.edges.any (fun e => (e.1 == a && e.2 == b) || (e.1 == b && e.2 == a))

/-- The spec's data model: a simple undirected graph, with valid endpoints,
no self-loops and no parallel edges (in either orientation). -/
def SGraph.Simple (g : SGraph) : Prop :=
  (∀ e ∈ g.edges, e.1 < g.n ∧ e.2 < g.n ∧ e.1 ≠ e.2) ∧
  g.edges.Pairwise (fun e e' => ¬ (e = e' ∨ e = (e'.2, e'.1)))

instance (g : SGraph) : Decidable g.Simple := by
  unfold SGraph.Simple; infer_instance

/-- Neighbors of a node, embedding petgraph `neighbors` on a simple
undirected graph: the adjacent node identifiers (in identifier order; all
uses in the source either count them or sort what is built from them). -/
def neighborsL (g : SGraph) (v : Nat) : List Nat :=
  (List.range g.n).filter (fun w => adjB g v w)

/-- Node degree, embedding `graph.neighbors(node).count()`. -/
def degreeOf (g : SGraph) (v : Nat) : Nat :=
  (neighborsL g v).length

/-- Total count carried by a label counter, used by the modelled hash. -/
def sumCounts (l : List (String × Nat)) : Nat :=
  (l.map (·.2)).sum

/-- Modelled from the spec: `deterministic_hash` applied to a `String`.
The source composes the process-default SipHash (`DefaultHasher`) with a
Sha256 hex digest, both external library code; §4.1 of the spec accepts
any deterministic function whose equal inputs give equal output strings.
The model uses an injective parenthesis wrapping. -/
def dh_str (s : String) : String :=
  "(" ++ s ++ ")"

/-- Modelled from the spec: one `(label, count)` entry of the final counter
as rendered by the modelled hash. -/
def encPair (p : String × Nat) : String :=
  p.1 ++ "," ++ toString p.2 ++ ";"

/-- Modelled from the spec: `deterministic_hash` applied to the accumulated
`Vec<(String, usize)>` counter of the 1-WL path (external `DefaultHasher` +
Sha256 in the source).  The model is a deterministic injective rendering;
its leading run of `#` characters carries the total count, which the
development uses where the spec relies on distinct inputs hashing apart. -/
def dh_counts (l : List (String × Nat)) : String :=
  ⟨List.replicate (sumCounts l) '#' ++ ';' :: (String.join (l.map encPair)).data⟩

/-- Modelled from the spec: `deterministic_hash` applied to the final
sorted `Vec<usize>` color multiset of the k ≥ 2 path (external
`DefaultHasher` + Sha256 in the source), as a deterministic rendering. -/
def dh_nats (l : List Nat) : String :=
  "[" ++ String.intercalate "," (l.map toString) ++ "]"

/-! ## Sorting

The source sorts `Vec<String>`, `Vec<u8>`, `Vec<usize>` and
`Vec<Vec<usize>>` values with Rust's lexicographic `Ord`.  The embedding
uses explicit boolean comparators (strict order on elements, lexicographic
order on lists, pointwise order on strings) and an insertion sort, so that
every sort step evaluates in the kernel. -/

/-- Strict order on `Nat` as a boolean. -/
def natLtB (a b : Nat) : Bool := a < b

/-- Strict order on `Char` (by code point, matching Rust's byte order on
the ASCII strings this development produces). -/
def charLtB (a b : Char) : Bool := a.toNat < b.toNat

/-- Lexicographic not-greater test on lists from a strict element test:
Rust's `Ord` for `Vec<T>` and for strings. -/
def lexLeB {α : Type} (ltb : α → α → Bool) : List α → List α → Bool
  | [], _ => true
  | _ :: _, [] => false
  | a :: as, b :: bs =>
    if ltb a b then true else if ltb b a then false else lexLeB ltb as bs

/-- Rust's string order on the embedding's ASCII strings. -/
def strLeB (s t : String) : Bool := lexLeB charLtB s.data t.data

/-- Lexicographic order on `Vec<usize>` / `Vec<u8>` values. -/
def natListLeB (l l' : List Nat) : Bool := lexLeB natLtB l l'

/-- Insert into a sorted list, keeping it sorted. -/
def insertB {α : Type} (le : α → α → Bool) (a : α) : List α → List α
  | [] => [a]
  | b :: bs => if le a b then a :: b :: bs else b :: insertB le a bs

/-- Insertion sort with a boolean comparator, embedding the source's
`sort` / `sort_unstable` calls (all sort keys involved are distinct or
compare equal only when equal, so stability is irrelevant). -/
def insSort {α : Type} (le : α → α → Bool) : List α → List α
  | [] => []
  | a :: as => insertB le a (insSort le as)

/-- Sorted list of the distinct elements of `l`: the source collects
`HashMap` keys and sorts them, which yields exactly this list. -/
def dedupSortB {α : Type} [DecidableEq α] (le : α → α → Bool) (l : List α) : List α :=
  (insSort le l).dedup

/-- Canonicalized color assignment: each element receives the index of its
key in the sorted list of distinct keys, embedding the source's
sorted-then-enumerated `next_color` loops. -/
def rankColorsB {α : Type} [DecidableEq α] (le : α → α → Bool) (sigs : List α) : List Nat :=
  sigs.map (fun s => (dedupSortB le sigs).indexOf s)

/-! ## The k = 1 path: `weisfeiler_lehman_graph_hash` -/

/-- Initial node labels: each node's degree as a string. -/
def initLabels (g : SGraph) : List String :=
  (List.range g.n).map (fun v => toString (degreeOf g v))

/-- One 1-WL refinement round: every node's new label is the hash of its
current label concatenated with its sorted neighbor labels. -/
def wlRound (g : SGraph) (labels : List String) : List String :=
  (List.range g.n).map (fun v =>
    let nl := insSort strLeB ((neighborsL g v).map (fun w => labels.getD w ""))
    dh_str (labels.getD v "" ++ String.join nl))

/-- Per-round counter: occurrence counts of the current labels, sorted by
label (the source builds a `HashMap` counter and sorts its items). -/
def labelCounts (labels : List String) : List (String × Nat) :=
  (dedupSortB strLeB labels).map (fun s => (s, labels.count s))

/-- Labels and accumulated per-round counters after `r` rounds. -/
def wlIter (g : SGraph) : Nat → List String × List (String × Nat)
  | 0 => (initLabels g, [])
  | r + 1 =>
    let p := wlIter g r
    let ls := wlRound g p.1
    (ls, p.2 ++ labelCounts ls)

/-- Embedding of `weisfeiler_lehman_graph_hash`: run `iterations` rounds
and hash the accumulated counter sequence. -/
def weisfeiler_lehman_graph_hash (g : SGraph) (iterations : Nat) : String :=
  dh_counts (wlIter g iterations).2

/-! ## The k ≥ 2 path -/

/-- All k-tuples of the given nodes (k-fold Cartesian power, leftmost
position outermost), embedding `generate_tuples`. -/
def tuplesK : Nat → List Nat → List (List Nat)
  | 0, _ => [[]]
  | k + 1, nodes => nodes.flatMap (fun v => (tuplesK k nodes).map (v :: ·))

/-- Atomic type of a k-tuple: the vector of adjacency indicators over the
ordered pairs i < j inside the tuple, embedding `atomic_type`. -/
def atomic_type (t : List Nat) (g : SGraph) : List Nat :=
  (List.range t.length).flatMap (fun i =>
    ((List.range t.length).drop (i + 1)).map (fun j =>
      if adjB g (t.getD i 0) (t.getD j 0) then 1 else 0))

/-- Color of a tuple under a coloring aligned with the canonical tuple
list, embedding `colors.get(k_tuple).unwrap_or(&0)`. -/
def colorOf (tuples : List (List Nat)) (c : List Nat) (t : List Nat) : Nat :=
  c.getD (tuples.indexOf t) 0

/-- Composite signature of a tuple in one refinement round: its own color
followed, for each position i, by the sorted multiset of colors of the
tuples obtained by substituting every node at position i. -/
def stepSig (g : SGraph) (k : Nat) (tuples : List (List Nat)) (c : List Nat)
    (t : List Nat) : List Nat :=
  colorOf tuples c t ::
    (List.range k).flatMap (fun i =>
      insSort Nat.ble
        ((List.range g.n).map (fun w => colorOf tuples c (t.set i w))))

/-- One k-WL round: recolor all tuples canonically by their composite
signatures. -/
def stepColors (g : SGraph) (k : Nat) (tuples : List (List Nat)) (c : List Nat) :
    List Nat :=
  rankColorsB natListLeB (tuples.map (stepSig g k tuples c))

/-- The refinement loop of `k_wl`: up to `its` rounds, stopping early when
a round reproduces the previous coloring. -/
def kwlLoop (g : SGraph) (k : Nat) (tuples : List (List Nat)) :
    Nat → List Nat → List Nat
  | 0, c => c
  | its + 1, c =>
    let c' := stepColors g k tuples c
    if c' = c then c else kwlLoop g k tuples its c'

/-- The k ≥ 2 branch of `k_wl`: initial colors from atomic types, the
refinement loop, then the hash of the sorted final color multiset. -/
def kwl_high (g : SGraph) (k : Nat) (its : Nat) : String :=
  let tuples := tuplesK k (List.range g.n)
  let c0 := rankColorsB natListLeB (tuples.map (fun t => atomic_type t g))
  dh_nats (insSort Nat.ble (kwlLoop g k tuples its c0))

/-- Body of `k_wl` after its contract guards: resolve the `-1` sentinel to
the node count, dispatch on k. -/
def k_wl_run (g : SGraph) (k : Nat) (iterations : Int) : String :=
  let its : Nat := if iterations = -1 then g.n else iterations.toNat
  if k = 1 then weisfeiler_lehman_graph_hash g its
  else kwl_high g k its

/-- Embedding of `k_wl`, with the two `panic!` guards of the source as
`none`: `k < 1` and an `iterations` value that is neither the `-1`
sentinel nor at least 1 are contract violations. -/
def k_wl (g : SGraph) (k : Nat) (iterations : Int) : Option String :=
  if k < 1 then none
  else if iterations ≠ -1 ∧ iterations < 1 then none
  else some (k_wl_run g k iterations)

/-- The 1-WL signature used by the store as bucket key:
`k_wl(element, 1, -1)`. -/
def wlsig (g : SGraph) : String :=
  k_wl_run g 1 (-1)

/-! ## The store and the generator -/

/-- All ways of inserting an element into a list, one per position. -/
def insertsB {α : Type} (a : α) : List α → List (List α)
  | [] => [[a]]
  | b :: bs => (a :: b :: bs) :: (insertsB a bs).map (b :: ·)

/-- All permutations of a list (structurally recursive so that concrete
instances evaluate). -/
def permsL {α : Type} : List α → List (List α)
  | [] => [[]]
  | a :: as => (permsL as).flatMap (insertsB a)

/-- Modelled from the spec: the Isomorphism Oracle (`petgraph::algo::
is_isomorphic`, external library code) — an exact yes/no graph-isomorphism
test, realized by searching all node permutations. -/
def is_isomorphic (a b : SGraph) : Bool :=
  a.n == b.n &&
    (permsL (List.range a.n)).any (fun p =>
      (List.range a.n).all (fun i => (List.range a.n).all (fun j =>
        adjB a i j == adjB b (p.getD i 0) (p.getD j 0))))

/-- The bucketed deduplication store: signature keys each with the list of
retained graphs, in insertion order. -/
abbrev Store := List (String × List SGraph)

def Store.keys (s : Store) : List String :=
  s.map Prod.fst

def Store.allGraphs (s : Store) : List SGraph :=
  (s.map Prod.snd).flatten

/-- Append a graph to the bucket of an existing key. -/
def Store.pushG (s : Store) (key : String) (g : SGraph) : Store :=
  s.map (fun p => if p.1 = key then (p.1, p.2 ++ [g]) else p)

/-- Remove a key's binding (the keys of a reachable store are distinct). -/
def Store.eraseKey : Store → String → Store
  | [], _ => []
  | q :: rest, key =>
    if q.1 = key then Store.eraseKey rest key else q :: Store.eraseKey rest key

/-- Replace the bucket of an existing key. -/
def Store.replaceB (s : Store) (key : String) (b : List SGraph) : Store :=
  s.map (fun p => if p.1 = key then (p.1, b) else p)

/-- Embedding of `add_element_to_hashes`: key the graph by its 1-WL
signature, create the bucket if absent, reject if any bucket member is
isomorphic, otherwise append and accept. -/
def add_element_to_hashes (element : SGraph) (hashes : Store) : Bool × Store :=
  let h := wlsig element
  let s1 := if (hashes.lookup h).isSome then hashes else hashes ++ [(h, [])]
  let bucket := (s1.lookup h).getD []
  if bucket.any (fun g => is_isomorphic element g) then (false, s1)
  else (true, s1.pushG h element)

/-- The i-th candidate extension of `element`: one fresh node (identifier
`element.n`) joined to the existing node `j` exactly when bit j of i is
set, embedding the edge-subset loop of `recursive_generate`. -/
def candidate (element : SGraph) (i : Nat) : SGraph :=
  ⟨element.n + 1,
   element.edges ++ ((List.range element.n).filter (fun j => (i >>> j) % 2 == 1)).map
     (fun j => (element.n, j))⟩

/-- Embedding of `recursive_generate`, with explicit fuel for the
recursion (the source recursion is bounded by the `node_count > max_size`
guard; `rgFuel_fuel_irrelevant` below shows any sufficient fuel computes
the same store). -/
def rgFuel : Nat → SGraph → Nat → Store → Store
  | 0, _, _, s => s
  | fuel + 1, element, max_size, s =>
    if element.n + 1 > max_size then s
    else
      (List.range (2 ^ element.n)).foldl (fun st i =>
        let g := candidate element i
        let pr := add_element_to_hashes g st
        if pr.1 then rgFuel fuel g max_size pr.2 else pr.2) s

def recursive_generate (element : SGraph) (max_size : Nat) (s : Store) : Store :=
  rgFuel (max_size + 1 - element.n) element max_size s

/-- The store right after generation, before the family filter: the
single-node starting graph is inserted, then the recursion runs. -/
def generate_store (max_size : Nat) : Store :=
  let starting : SGraph := ⟨1, []⟩
  recursive_generate starting max_size (add_element_to_hashes starting []).2

/-- The filtering decision for one bucket: drop buckets with at most one
member, keep only members of the target size, drop if that empties it. -/
def filterResultB (max_size : Nat) (bucket : List SGraph) : Option (List SGraph) :=
  if bucket.length ≤ 1 then none
  else
    let fg := bucket.filter (fun g => g.n == max_size)
    if fg.isEmpty then none else some fg

/-- One step of the filter loop at one key of the snapshot. -/
def filterStep (max_size : Nat) (s : Store) (key : String) : Store :=
  match s.lookup key with
  | none => s
  | some bucket =>
    match filterResultB max_size bucket with
    | none => s.eraseKey key
    | some fg => s.replaceB key fg

/-- The family-filter pass: fold the per-key step over a snapshot of the
keys, in the (unspecified) order the `HashMap` yields them. -/
def filter_store (max_size : Nat) (order : List String) (s : Store) : Store :=
  order.foldl (filterStep max_size) s

/-- Embedding of `generate_graphs`, with the `max_size < 1` `panic!` of
the source as `none`. -/
def generate_graphs (max_size : Nat) : Option Store :=
  if max_size < 1 then none
  else
    let s := generate_store max_size
    some (filter_store max_size s.keys s)

/-- A function acting as a bijection on `0 .. n-1`. -/
structure RangeBij (n : Nat) (σ : Nat → Nat) : Prop where
  mem : ∀ i, i < n → σ i < n
  inj : ∀ i, i < n → ∀ j, j < n → σ i = σ j → i = j
  surj : ∀ j, j < n → ∃ i, i < n ∧ σ i = j


/-- An adjacency-preserving node relabeling from `G` to `H`: the witness
that `H` is `G` with its nodes permuted by `σ`. -/
structure AdjRelabel (G H : SGraph) (σ : Nat → Nat) : Prop where
  hn : H.n = G.n
  bij : RangeBij G.n σ
  adj : ∀ i, i < G.n → ∀ j, j < G.n → adjB H (σ i) (σ j) = adjB G i j

/-- Stores reachable from the empty store by insertions. -/
inductive Reachable : Store → Prop
  | empty : Reachable []
  | step (g : SGraph) (s : Store) : Reachable s → Reachable (add_element_to_hashes g s).2

def NodupKeys (s : Store) : Prop := s.keys.Nodup

/-- Every bucket is keyed by the 1-WL signature of its members. -/
def SigConsistent (s : Store) : Prop := ∀ p ∈ s, ∀ g ∈ p.2, wlsig g = p.1

/-- No two graphs of one bucket are isomorphic, in either direction. -/
def BucketsOK (s : Store) : Prop :=
  ∀ p ∈ s, p.2.Pairwise
    (fun g1 g2 => is_isomorphic g1 g2 = false ∧ is_isomorphic g2 g1 = false)

def StoreWF (s : Store) : Prop := NodupKeys s ∧ SigConsistent s ∧ BucketsOK s

/-- Pure iteration of the recoloring round, with no early stop. -/
def stepIter (g : SGraph) (k : Nat) (tuples : List (List Nat)) : Nat → List Nat → List Nat
  | 0, c => c
  | r + 1, c => stepIter g k tuples r (stepColors g k tuples c)

/-- The initial coloring of the k ≥ 2 path: atomic types, canonically
enumerated. -/
def initColorsK (g : SGraph) (k : Nat) : List Nat :=
  rankColorsB natListLeB ((tuplesK k (List.range g.n)).map (fun t => atomic_type t g))

/-! ## Properties of the comparators and of the sort -/

/-- A boolean strict order suitable for lexicographic lifting. -/
structure LtOK {α : Type} (ltb : α → α → Bool) : Prop where
  asymm : ∀ a b, ltb a b = true → ltb b a = false
  conn : ∀ a b, ltb a b = false → ltb b a = false → a = b
  trans : ∀ a b c, ltb a b = true → ltb b c = true → ltb a c = true

/-- A boolean total preorder with antisymmetry: what the sorting lemmas
need of a comparator. -/
structure LeOK {α : Type} (le : α → α → Bool) : Prop where
  total : ∀ a b, le a b = true ∨ le b a = true
  trans : ∀ a b c, le a b = true → le b c = true → le a c = true
  antisymm : ∀ a b, le a b = true → le b a = true → a = b

theorem natLtB_ok : LtOK natLtB := by
  constructor <;> (intro a b; simp [natLtB]) <;> omega

theorem charLtB_ok : LtOK charLtB := by
  refine ⟨?_, ?_, ?_⟩
  · intro a b h
    simp only [charLtB, decide_eq_true_eq] at h
    simp only [charLtB, decide_eq_false_iff_not]
    omega
  · intro a b h1 h2
    simp only [charLtB, decide_eq_false_iff_not] at h1 h2
    have h3 : a.toNat = b.toNat := by omega
    exact Char.ext (UInt32.ext h3)
  · intro a b c h1 h2
    simp only [charLtB, decide_eq_true_eq] at h1 h2 ⊢
    omega

theorem lexLeB_cons {α : Type} {ltb : α → α → Bool} {a b : α} {as bs : List α} :
    lexLeB ltb (a :: as) (b :: bs) = true ↔
      (ltb a b = true ∨ (ltb a b = false ∧ ltb b a = false ∧ lexLeB ltb as bs = true)) := by
  by_cases h1 : ltb a b = true <;> by_cases h2 : ltb b a = true <;>
    simp [lexLeB, h1, h2]

theorem lexLeB_ok {α : Type} {ltb : α → α → Bool} (h : LtOK ltb) : LeOK (lexLeB ltb) := by
  refine ⟨?_, ?_, ?_⟩
  · intro l₁
    induction l₁ with
    | nil => intro l₂; left; rfl
    | cons a as ih =>
      intro l₂
      cases l₂ with
      | nil => right; rfl
      | cons b bs =>
        by_cases hab : ltb a b = true
        · left; rw [lexLeB_cons]; exact Or.inl hab
        · by_cases hba : ltb b a = true
          · right; rw [lexLeB_cons]; exact Or.inl hba
          · have hab' : ltb a b = false := by simpa using hab
            have hba' : ltb b a = false := by simpa using hba
            have heq := h.conn a b hab' hba'
            subst heq
            rcases ih bs with h' | h'
            · left; rw [lexLeB_cons]; exact Or.inr ⟨hab', hab', h'⟩
            · right; rw [lexLeB_cons]; exact Or.inr ⟨hab', hab', h'⟩
  · intro l₁
    induction l₁ with
    | nil => intro l₂ l₃ _ _; rfl
    | cons a as ih =>
      intro l₂ l₃ h12 h23
      match l₂, l₃ with
      | [], _ => simp [lexLeB] at h12
      | b :: bs, [] => simp [lexLeB] at h23
      | b :: bs, c :: cs =>
        rw [lexLeB_cons] at h12 h23 ⊢
        rcases h12 with hab | ⟨hab, hba, h12⟩
        · rcases h23 with hbc | ⟨hbc, hcb, h23⟩
          · exact Or.inl (h.trans a b c hab hbc)
          · exact Or.inl (h.conn b c hbc hcb ▸ hab)
        · have heq := h.conn a b hab hba
          subst heq
          rcases h23 with hbc | ⟨hbc, hcb, h23⟩
          · exact Or.inl hbc
          · exact Or.inr ⟨hbc, hcb, ih bs cs h12 h23⟩
  · intro l₁
    induction l₁ with
    | nil =>
      intro l₂ h12 h21
      cases l₂ with
      | nil => rfl
      | cons b bs => simp [lexLeB] at h21
    | cons a as ih =>
      intro l₂ h12 h21
      cases l₂ with
      | nil => simp [lexLeB] at h12
      | cons b bs =>
        rw [lexLeB_cons] at h12 h21
        rcases h12 with hab | ⟨hab, hba, h12⟩
        · rcases h21 with hba | ⟨hba, hab', h21⟩
          · exact absurd hba (by simp [h.asymm a b hab])
          · exact absurd hab (by simp [hab'])
        · rcases h21 with hba' | ⟨hba', hab', h21⟩
          · exact absurd hba' (by simp [hba])
          · rw [h.conn a b hab hba, ih bs h12 h21]

theorem strLeB_ok : LeOK strLeB := by
  have h := lexLeB_ok charLtB_ok
  exact ⟨fun a b => h.total a.data b.data,
         fun a b c => h.trans a.data b.data c.data,
         fun a b hab hba => String.ext (h.antisymm a.data b.data hab hba)⟩

theorem natListLeB_ok : LeOK natListLeB := lexLeB_ok natLtB_ok

theorem bleOk : LeOK Nat.ble := by
  refine ⟨?_, ?_, ?_⟩
  · intro a b
    rcases Nat.le_total a b with h | h
    · exact Or.inl (Nat.ble_eq.mpr h)
    · exact Or.inr (Nat.ble_eq.mpr h)
  · intro a b c h1 h2
    exact Nat.ble_eq.mpr (Nat.le_trans (Nat.ble_eq.mp h1) (Nat.ble_eq.mp h2))
  · intro a b h1 h2
    exact Nat.le_antisymm (Nat.ble_eq.mp h1) (Nat.ble_eq.mp h2)

theorem insertB_perm {α : Type} (le : α → α → Bool) (a : α) (l : List α) :
    (insertB le a l).Perm (a :: l) := by
  induction l with
  | nil => rfl
  | cons b bs ih =>
    by_cases h : le a b = true
    · simp [insertB, h]
    · simp only [insertB, h, if_false]
      exact ((ih.cons b).trans (List.Perm.swap a b bs))

theorem insSort_perm {α : Type} (le : α → α → Bool) (l : List α) :
    (insSort le l).Perm l := by
  induction l with
  | nil => rfl
  | cons a as ih => exact (insertB_perm le a (insSort le as)).trans (ih.cons a)

theorem insertB_pairwise {α : Type} {le : α → α → Bool} (h : LeOK le) (a : α)
    {l : List α} (hl : l.Pairwise (fun x y => le x y = true)) :
    (insertB le a l).Pairwise (fun x y => le x y = true) := by
  induction l with
  | nil => simp [insertB]
  | cons b bs ih =>
    rcases hl with _ | ⟨hb, hbs⟩
    by_cases hab : le a b = true
    · simp only [insertB, hab, if_true]
      refine List.Pairwise.cons ?_ (List.Pairwise.cons hb hbs)
      intro x hx
      rcases List.mem_cons.1 hx with rfl | hx
      · exact hab
      · exact h.trans a b x hab (hb x hx)
    · simp only [insertB, hab, if_false]
      refine List.Pairwise.cons ?_ (ih hbs)
      intro x hx
      have hx' := (insertB_perm le a bs).mem_iff.1 hx
      rcases List.mem_cons.1 hx' with rfl | hx'
      · rcases h.total b x with h' | h'
        · exact h'
        · exact absurd h' (by simpa using hab)
      · exact hb x hx'

theorem insSort_pairwise {α : Type} {le : α → α → Bool} (h : LeOK le) (l : List α) :
    (insSort le l).Pairwise (fun x y => le x y = true) := by
  induction l with
  | nil => exact List.Pairwise.nil
  | cons a as ih => exact insertB_pairwise h a ih

/-- Two lists with the same multiset of elements sort identically: the
sorted result is a canonical form. -/
theorem insSort_eq_of_perm {α : Type} {le : α → α → Bool} (h : LeOK le)
    {l₁ l₂ : List α} (hp : l₁.Perm l₂) : insSort le l₁ = insSort le l₂ := by
  haveI : IsAntisymm α (fun x y => le x y = true) := ⟨h.antisymm⟩
  exact List.eq_of_perm_of_sorted
    ((insSort_perm le l₁).trans (hp.trans (insSort_perm le l₂).symm))
    (insSort_pairwise h l₁) (insSort_pairwise h l₂)

theorem dedupSortB_eq_of_perm {α : Type} [DecidableEq α] {le : α → α → Bool}
    (h : LeOK le) {l₁ l₂ : List α} (hp : l₁.Perm l₂) :
    dedupSortB le l₁ = dedupSortB le l₂ := by
  unfold dedupSortB
  rw [insSort_eq_of_perm h hp]

theorem dedupSortB_perm_dedup {α : Type} [DecidableEq α] (le : α → α → Bool)
    (l : List α) : (dedupSortB le l).Perm l.dedup :=
  (insSort_perm le l).dedup

theorem labelCounts_eq_of_perm {l₁ l₂ : List String} (hp : l₁.Perm l₂) :
    labelCounts l₁ = labelCounts l₂ := by
  unfold labelCounts
  rw [dedupSortB_eq_of_perm strLeB_ok hp]
  exact List.map_congr_left (fun s _ => by rw [hp.count_eq])

/-! ## List utilities for the relabeling arguments -/

theorem getD_map_range {α : Type} (f : Nat → α) (d : α) {v n : Nat} (hv : v < n) :
    ((List.range n).map f).getD v d = f v := by
  rw [List.getD_eq_getElem?_getD, List.getElem?_map, List.getElem?_range hv]
  rfl

theorem getD_map_lt {α β : Type} (f : α → β) {l : List α} {i : Nat} (d : β) (d' : α)
    (h : i < l.length) : (l.map f).getD i d = f (l.getD i d') := by
  simp [List.getD_eq_getElem?_getD, List.getElem?_map, List.getElem?_eq_getElem, h]

theorem getD_lt_eq_getElem {α : Type} {l : List α} {i : Nat} (d : α) (h : i < l.length) :
    l.getD i d = l[i] := by
  simp [List.getD_eq_getElem?_getD, List.getElem?_eq_getElem, h]

theorem list_eq_map_range_getD {α : Type} (l : List α) (n : Nat) (d : α)
    (h : l.length = n) : l = (List.range n).map (fun i => l.getD i d) := by
  apply List.ext_getElem
  · simp [h]
  · intro i h1 h2
    rw [List.getElem_map, List.getElem_range, getD_lt_eq_getElem d h1]

theorem RangeBij.map_range_perm {n : Nat} {σ : Nat → Nat} (h : RangeBij n σ) :
    ((List.range n).map σ).Perm (List.range n) := by
  rw [List.perm_ext_iff_of_nodup
    ((List.nodup_range n).map_on (fun i hi j hj hij =>
      h.inj i (List.mem_range.1 hi) j (List.mem_range.1 hj) hij))
    (List.nodup_range n)]
  intro a
  constructor
  · intro ha
    rcases List.mem_map.1 ha with ⟨i, hi, rfl⟩
    exact List.mem_range.2 (h.mem i (List.mem_range.1 hi))
  · intro ha
    rcases h.surj a (List.mem_range.1 ha) with ⟨i, hi, rfl⟩
    exact List.mem_map.2 ⟨i, List.mem_range.2 hi, rfl⟩

theorem RangeBij.reindex_perm {α : Type} {n : Nat} {σ : Nat → Nat} (h : RangeBij n σ)
    (f : Nat → α) : ((List.range n).map (fun i => f (σ i))).Perm ((List.range n).map f) := by
  have h1 : (List.range n).map (fun i => f (σ i)) = ((List.range n).map σ).map f := by
    rw [List.map_map]; rfl
  rw [h1]
  exact h.map_range_perm.map f

/-! ## Lemmas about the permutation enumeration -/

theorem perm_of_mem_insertsB {α : Type} {a : α} :
    ∀ {l x : List α}, x ∈ insertsB a l → x.Perm (a :: l) := by
  intro l
  induction l with
  | nil =>
    intro x hx
    simp only [insertsB, List.mem_singleton] at hx
    subst hx; rfl
  | cons b bs ih =>
    intro x hx
    simp only [insertsB, List.mem_cons, List.mem_map] at hx
    rcases hx with rfl | ⟨y, hy, rfl⟩
    · exact List.Perm.refl _
    · exact ((ih hy).cons b).trans (List.Perm.swap a b bs)

theorem perm_of_mem_permsL {α : Type} :
    ∀ {l x : List α}, x ∈ permsL l → x.Perm l := by
  intro l
  induction l with
  | nil =>
    intro x hx
    simp only [permsL, List.mem_singleton] at hx
    subst hx; rfl
  | cons a as ih =>
    intro x hx
    simp only [permsL, List.mem_flatMap] at hx
    rcases hx with ⟨p, hp, hx⟩
    exact (perm_of_mem_insertsB hx).trans ((ih hp).cons a)

theorem append_cons_mem_insertsB {α : Type} (a : α) :
    ∀ (u v : List α), (u ++ a :: v) ∈ insertsB a (u ++ v) := by
  intro u
  induction u with
  | nil => intro v; cases v <;> simp [insertsB]
  | cons b bs ih =>
    intro v
    simp only [List.cons_append, insertsB, List.mem_cons, List.mem_map]
    exact Or.inr ⟨bs ++ a :: v, ih v, rfl⟩

theorem mem_permsL_of_perm {α : Type} :
    ∀ {l x : List α}, x.Perm l → x ∈ permsL l := by
  intro l
  induction l with
  | nil =>
    intro x hx
    rw [List.perm_nil] at hx
    simp [hx, permsL]
  | cons a as ih =>
    intro x hx
    have ha : a ∈ x := hx.mem_iff.2 (List.mem_cons_self a as)
    rcases List.append_of_mem ha with ⟨u, v, rfl⟩
    have huv : (u ++ v).Perm as := by
      have h1 : (u ++ a :: v).Perm (a :: (u ++ v)) := List.perm_middle
      exact (h1.symm.trans hx).cons_inv
    simp only [permsL, List.mem_flatMap]
    exact ⟨u ++ v, ih huv, append_cons_mem_insertsB a u v⟩

/-! ## Extracting and building relabelings from the oracle -/

theorem relabel_of_iso {a b : SGraph} (h : is_isomorphic a b = true) :
    ∃ σ, AdjRelabel a b σ := by
  unfold is_isomorphic at h
  rw [Bool.and_eq_true] at h
  rcases h with ⟨h1, h2⟩
  rw [List.any_eq_true] at h2
  rcases h2 with ⟨p, hpmem, hcheck⟩
  have hpp : p.Perm (List.range a.n) := perm_of_mem_permsL hpmem
  have hplen : p.length = a.n := by rw [hpp.length_eq, List.length_range]
  have hpnodup : p.Nodup := hpp.nodup_iff.2 (List.nodup_range a.n)
  have hgetD : ∀ i, ∀ hi : i < p.length, p.getD i 0 = p[i] := by
    intro i hi
    exact getD_lt_eq_getElem 0 hi
  have hmem : ∀ i, i < a.n → p.getD i 0 < a.n := by
    intro i hi
    have hi2 : i < p.length := by omega
    rw [hgetD i hi2]
    have hm : p[i] ∈ p := List.getElem_mem _
    exact List.mem_range.1 (hpp.mem_iff.1 hm)
  refine ⟨fun i => p.getD i 0, ⟨(beq_iff_eq.1 h1).symm, ⟨hmem, ?_, ?_⟩, ?_⟩⟩
  · intro i hi j hj hij
    rw [hgetD i (by omega), hgetD j (by omega)] at hij
    exact (List.Nodup.getElem_inj_iff hpnodup).1 hij
  · intro j hj
    have : j ∈ p := hpp.mem_iff.2 (List.mem_range.2 hj)
    rcases List.mem_iff_getElem.1 this with ⟨i, hi, hij⟩
    refine ⟨i, by omega, ?_⟩
    rw [hgetD i (by omega)]
    exact hij
  · intro i hi j hj
    rw [List.all_eq_true] at hcheck
    have h3 := hcheck i (List.mem_range.2 hi)
    rw [List.all_eq_true] at h3
    exact (beq_iff_eq.1 (h3 j (List.mem_range.2 hj))).symm

theorem iso_of_relabel {a b : SGraph} {σ : Nat → Nat} (h : AdjRelabel a b σ) :
    is_isomorphic a b = true := by
  unfold is_isomorphic
  rw [Bool.and_eq_true]
  refine ⟨beq_iff_eq.2 h.hn.symm, ?_⟩
  rw [List.any_eq_true]
  refine ⟨(List.range a.n).map σ, mem_permsL_of_perm h.bij.map_range_perm, ?_⟩
  rw [List.all_eq_true]
  intro i hi
  rw [List.all_eq_true]
  intro j hj
  have hi' := List.mem_range.1 hi
  have hj' := List.mem_range.1 hj
  rw [getD_map_range σ 0 hi', getD_map_range σ 0 hj']
  exact beq_iff_eq.2 (h.adj i hi' j hj').symm

theorem relabel_inv {a b : SGraph} {σ : Nat → Nat} (h : AdjRelabel a b σ) :
    ∃ τ, AdjRelabel b a τ := by
  classical
  refine ⟨fun j => if hj : ∃ i, i < a.n ∧ σ i = j then hj.choose else 0, ?_⟩
  have hστ : ∀ j, j < a.n →
      (if hj : ∃ i, i < a.n ∧ σ i = j then hj.choose else 0) < a.n ∧
      σ (if hj : ∃ i, i < a.n ∧ σ i = j then hj.choose else 0) = j := by
    intro j hj
    rcases h.bij.surj j hj with ⟨i, hi, hij⟩
    have hex : ∃ i, i < a.n ∧ σ i = j := ⟨i, hi, hij⟩
    rw [dif_pos hex]
    exact hex.choose_spec
  refine ⟨h.hn.symm, ⟨?_, ?_, ?_⟩, ?_⟩
  · intro i hi
    rw [h.hn] at hi ⊢
    exact (hστ i hi).1
  · intro i hi j hj hij
    rw [h.hn] at hi hj
    have h1 := (hστ i hi).2
    have h2 := (hστ j hj).2
    rw [hij] at h1
    rw [h1] at h2
    exact h2
  · intro j hj
    rw [h.hn] at hj ⊢
    refine ⟨σ j, h.bij.mem j hj, ?_⟩
    have h1 := (hστ (σ j) (h.bij.mem j hj)).2
    exact h.bij.inj _ (hστ (σ j) (h.bij.mem j hj)).1 j hj h1
  · intro i hi j hj
    rw [h.hn] at hi hj
    have h1 := hστ i hi
    have h2 := hστ j hj
    have h3 := h.adj _ h1.1 _ h2.1
    rw [h1.2, h2.2] at h3
    exact h3.symm

theorem iso_symm {a b : SGraph} (h : is_isomorphic a b = true) :
    is_isomorphic b a = true := by
  rcases relabel_of_iso h with ⟨σ, hσ⟩
  rcases relabel_inv hσ with ⟨τ, hτ⟩
  exact iso_of_relabel hτ

/-! ## Invariance of the 1-WL hash under relabeling -/

theorem wlIter_labels_length (g : SGraph) : ∀ r, (wlIter g r).1.length = g.n
  | 0 => by simp [wlIter, initLabels]
  | r + 1 => by simp [wlIter, wlRound]

theorem mem_neighborsL_lt {g : SGraph} {v w : Nat} (h : w ∈ neighborsL g v) : w < g.n := by
  unfold neighborsL at h
  exact List.mem_range.1 (List.mem_of_mem_filter h)

theorem neighborsL_relabel {G H : SGraph} {σ : Nat → Nat} (h : AdjRelabel G H σ)
    {v : Nat} (hv : v < G.n) :
    (neighborsL H (σ v)).Perm ((neighborsL G v).map σ) := by
  unfold neighborsL
  rw [h.hn]
  have h1 : ((List.range G.n).filter (fun w => adjB H (σ v) w)).Perm
      (((List.range G.n).map σ).filter (fun w => adjB H (σ v) w)) :=
    (h.bij.map_range_perm.filter _).symm
  have h2 : ((List.range G.n).map σ).filter (fun w => adjB H (σ v) w)
      = ((List.range G.n).filter (fun w => adjB H (σ v) (σ w))).map σ :=
    List.filter_map σ (List.range G.n)
  have h3 : (List.range G.n).filter (fun w => adjB H (σ v) (σ w))
      = (List.range G.n).filter (fun w => adjB G v w) :=
    List.filter_congr (fun w hw => h.adj v hv w (List.mem_range.1 hw))
  exact h1.trans (List.Perm.of_eq (by rw [h2, h3]))

theorem degree_relabel {G H : SGraph} {σ : Nat → Nat} (h : AdjRelabel G H σ)
    {v : Nat} (hv : v < G.n) : degreeOf H (σ v) = degreeOf G v := by
  unfold degreeOf
  rw [(neighborsL_relabel h hv).length_eq, List.length_map]

theorem wl_labels_relabel {G H : SGraph} {σ : Nat → Nat} (h : AdjRelabel G H σ) :
    ∀ r, ∀ v, v < G.n → (wlIter H r).1.getD (σ v) "" = (wlIter G r).1.getD v "" := by
  intro r
  induction r with
  | zero =>
    intro v hv
    show (initLabels H).getD (σ v) "" = (initLabels G).getD v ""
    unfold initLabels
    rw [h.hn, getD_map_range _ _ (h.bij.mem v hv), getD_map_range _ _ hv,
      degree_relabel h hv]
  | succ r ih =>
    intro v hv
    show (wlRound H (wlIter H r).1).getD (σ v) "" = (wlRound G (wlIter G r).1).getD v ""
    unfold wlRound
    rw [h.hn, getD_map_range _ _ (h.bij.mem v hv), getD_map_range _ _ hv]
    have hsort : insSort strLeB ((neighborsL H (σ v)).map (fun w => (wlIter H r).1.getD w ""))
        = insSort strLeB ((neighborsL G v).map (fun w => (wlIter G r).1.getD w "")) := by
      have hp := (neighborsL_relabel h hv).map (fun w => (wlIter H r).1.getD w "")
      rw [List.map_map] at hp
      have heq : (neighborsL G v).map ((fun w => (wlIter H r).1.getD w "") ∘ σ)
          = (neighborsL G v).map (fun w => (wlIter G r).1.getD w "") :=
        List.map_congr_left (fun w hw => ih w (mem_neighborsL_lt hw))
      rw [heq] at hp
      exact insSort_eq_of_perm strLeB_ok hp
    rw [ih v hv, hsort]

theorem wl_labels_perm {G H : SGraph} {σ : Nat → Nat} (h : AdjRelabel G H σ) (r : Nat) :
    ((wlIter H r).1).Perm ((wlIter G r).1) := by
  have hH : (wlIter H r).1 = (List.range G.n).map (fun u => (wlIter H r).1.getD u "") := by
    rw [← h.hn]
    exact list_eq_map_range_getD _ _ _ (wlIter_labels_length H r)
  have hG : (wlIter G r).1 = (List.range G.n).map (fun u => (wlIter G r).1.getD u "") :=
    list_eq_map_range_getD _ _ _ (wlIter_labels_length G r)
  have hp : ((List.range G.n).map (fun u => (wlIter H r).1.getD (σ u) "")).Perm
      ((List.range G.n).map (fun u => (wlIter H r).1.getD u "")) :=
    h.bij.reindex_perm (fun u => (wlIter H r).1.getD u "")
  have heq : (List.range G.n).map (fun u => (wlIter H r).1.getD (σ u) "")
      = (List.range G.n).map (fun u => (wlIter G r).1.getD u "") :=
    List.map_congr_left (fun u hu => wl_labels_relabel h r u (List.mem_range.1 hu))
  exact (List.Perm.of_eq hH).trans ((heq ▸ hp.symm).trans (List.Perm.of_eq hG.symm))

theorem wl_acc_relabel {G H : SGraph} {σ : Nat → Nat} (h : AdjRelabel G H σ) :
    ∀ r, (wlIter H r).2 = (wlIter G r).2 := by
  intro r
  induction r with
  | zero => rfl
  | succ r ih =>
    show (wlIter H r).2 ++ labelCounts (wlRound H (wlIter H r).1)
        = (wlIter G r).2 ++ labelCounts (wlRound G (wlIter G r).1)
    have h2 : labelCounts (wlRound H (wlIter H r).1) = labelCounts (wlRound G (wlIter G r).1) :=
      labelCounts_eq_of_perm (wl_labels_perm h (r + 1))
    rw [ih, h2]

theorem wl_hash_relabel {G H : SGraph} {σ : Nat → Nat} (h : AdjRelabel G H σ)
    (its : Nat) : weisfeiler_lehman_graph_hash H its = weisfeiler_lehman_graph_hash G its := by
  unfold weisfeiler_lehman_graph_hash
  rw [wl_acc_relabel h its]

/-! ## Tuple combinatorics for the k ≥ 2 path -/

theorem RangeBij.inv {n : Nat} {σ : Nat → Nat} (hb : RangeBij n σ) :
    ∃ τ, RangeBij n τ ∧ (∀ j, j < n → σ (τ j) = j) ∧ (∀ i, i < n → τ (σ i) = i) := by
  classical
  refine ⟨fun j => if hj : ∃ i, i < n ∧ σ i = j then hj.choose else 0, ?_, ?_, ?_⟩
  · refine ⟨?_, ?_, ?_⟩
    · intro j hj
      rcases hb.surj j hj with ⟨i, hi, hij⟩
      have hex : ∃ i, i < n ∧ σ i = j := ⟨i, hi, hij⟩
      rw [dif_pos hex]
      exact hex.choose_spec.1
    · intro i hi j hj hij
      rcases hb.surj i hi with ⟨x, hx, hxi⟩
      rcases hb.surj j hj with ⟨y, hy, hyj⟩
      have hexi : ∃ a, a < n ∧ σ a = i := ⟨x, hx, hxi⟩
      have hexj : ∃ a, a < n ∧ σ a = j := ⟨y, hy, hyj⟩
      rw [dif_pos hexi, dif_pos hexj] at hij
      have h1 := hexi.choose_spec
      have h2 := hexj.choose_spec
      rw [hij] at h1
      rw [h1.2] at h2
      exact h2.2
    · intro j hj
      refine ⟨σ j, hb.mem j hj, ?_⟩
      have hex : ∃ a, a < n ∧ σ a = σ j := ⟨j, hj, rfl⟩
      rw [dif_pos hex]
      have h1 := hex.choose_spec
      exact hb.inj _ h1.1 j hj h1.2
  · intro j hj
    rcases hb.surj j hj with ⟨i, hi, hij⟩
    have hex : ∃ i, i < n ∧ σ i = j := ⟨i, hi, hij⟩
    simp only [dif_pos hex]
    exact hex.choose_spec.2
  · intro i hi
    have hex : ∃ a, a < n ∧ σ a = σ i := ⟨i, hi, rfl⟩
    simp only [dif_pos hex]
    have h1 := hex.choose_spec
    exact hb.inj _ h1.1 i hi h1.2

theorem mem_tuplesK {k : Nat} {l t : List Nat} :
    t ∈ tuplesK k l ↔ t.length = k ∧ ∀ x ∈ t, x ∈ l := by
  induction k generalizing t with
  | zero =>
    simp only [tuplesK, List.mem_singleton]
    constructor
    · rintro rfl; simp
    · rintro ⟨h1, _⟩; exact List.eq_nil_of_length_eq_zero h1
  | succ k ih =>
    simp only [tuplesK, List.mem_flatMap, List.mem_map]
    constructor
    · rintro ⟨v, hv, s, hs, rfl⟩
      rcases ih.1 hs with ⟨h1, h2⟩
      refine ⟨by simp [h1], ?_⟩
      intro x hx
      rcases List.mem_cons.1 hx with rfl | hx
      · exact hv
      · exact h2 x hx
    · rintro ⟨h1, h2⟩
      cases t with
      | nil => simp at h1
      | cons v s =>
        refine ⟨v, h2 v (List.mem_cons_self v s), s, ?_, rfl⟩
        have hlen : s.length = k := by simpa using h1
        refine ih.2 ⟨hlen, ?_⟩
        intro x hx
        exact h2 x (List.mem_cons_of_mem v hx)

theorem nodup_tuplesK {k : Nat} {l : List Nat} (h : l.Nodup) : (tuplesK k l).Nodup := by
  induction k with
  | zero => simp [tuplesK]
  | succ k ih =>
    rw [tuplesK, List.nodup_flatMap]
    refine ⟨?_, ?_⟩
    · intro v _
      exact ih.map (fun s s' hss => by simpa using hss)
    · refine h.imp ?_
      intro v v' hvv
      intro x hx hx'
      rcases List.mem_map.1 hx with ⟨s, _, rfl⟩
      rcases List.mem_map.1 hx' with ⟨s', _, heq⟩
      have h2 : v' = v ∧ s' = s := by simpa using heq
      exact hvv h2.1.symm

theorem tuplesK_map_mem {n k : Nat} {σ : Nat → Nat} (hb : RangeBij n σ)
    {t : List Nat} (ht : t ∈ tuplesK k (List.range n)) :
    t.map σ ∈ tuplesK k (List.range n) := by
  rcases mem_tuplesK.1 ht with ⟨h1, h2⟩
  refine mem_tuplesK.2 ⟨by simp [h1], ?_⟩
  intro x hx
  rcases List.mem_map.1 hx with ⟨y, hy, rfl⟩
  exact List.mem_range.2 (hb.mem y (List.mem_range.1 (h2 y hy)))

theorem tuplesK_mem_lt {n k : Nat} {t : List Nat} (ht : t ∈ tuplesK k (List.range n))
    {x : Nat} (hx : x ∈ t) : x < n :=
  List.mem_range.1 ((mem_tuplesK.1 ht).2 x hx)

theorem tuples_map_perm {n k : Nat} {σ : Nat → Nat} (hb : RangeBij n σ) :
    ((tuplesK k (List.range n)).map (fun t => t.map σ)).Perm (tuplesK k (List.range n)) := by
  have hnd : (tuplesK k (List.range n)).Nodup := nodup_tuplesK (List.nodup_range n)
  rw [List.perm_ext_iff_of_nodup ?_ hnd]
  · intro x
    constructor
    · intro hx
      rcases List.mem_map.1 hx with ⟨t, ht, rfl⟩
      exact tuplesK_map_mem hb ht
    · intro hx
      rcases hb.inv with ⟨τ, hτ, hστ, _⟩
      refine List.mem_map.2 ⟨x.map τ, ?_, ?_⟩
      · rcases mem_tuplesK.1 hx with ⟨h1, h2⟩
        refine mem_tuplesK.2 ⟨by simp [h1], ?_⟩
        intro y hy
        rcases List.mem_map.1 hy with ⟨z, hz, rfl⟩
        exact List.mem_range.2 (hτ.mem z (List.mem_range.1 (h2 z hz)))
      · rw [List.map_map]
        have : ∀ y ∈ x, σ (τ y) = y := fun y hy => hστ y (tuplesK_mem_lt hx hy)
        calc x.map (σ ∘ τ) = x.map id := List.map_congr_left (fun y hy => this y hy)
          _ = x := List.map_id x
  · refine hnd.map_on ?_
    intro t ht t' ht' htt
    apply List.ext_getElem
    · have h1 := congrArg List.length htt
      simpa using h1
    · intro i hi1 hi2
      have h1 := List.getElem_of_eq htt (by simpa using hi1)
      rw [List.getElem_map, List.getElem_map] at h1
      exact hb.inj _ (tuplesK_mem_lt ht (List.getElem_mem _)) _
        (tuplesK_mem_lt ht' (List.getElem_mem _)) h1

theorem mapσ_surj_on_tuples {n k : Nat} {σ : Nat → Nat} (hb : RangeBij n σ)
    {t' : List Nat} (ht' : t' ∈ tuplesK k (List.range n)) :
    ∃ t ∈ tuplesK k (List.range n), t.map σ = t' := by
  have h1 := (tuples_map_perm (k := k) hb).mem_iff.2 ht'
  rcases List.mem_map.1 h1 with ⟨t, ht, heq⟩
  exact ⟨t, ht, heq⟩

/-! ## Generic indexOf facts (stated over any lawful BEq instance) -/

theorem indexOf_lt_of_mem {α : Type} [BEq α] [LawfulBEq α] {a : α} :
    ∀ {l : List α}, a ∈ l → l.indexOf a < l.length := by
  intro l
  induction l with
  | nil => intro h; cases h
  | cons b bs ih =>
    intro h
    rw [List.indexOf_cons]
    by_cases hb : b == a
    · simp [hb]
    · have hb' : (b == a) = false := by simpa using hb
      rw [hb']
      have hm : a ∈ bs := by
        rcases List.mem_cons.1 h with rfl | h'
        · simp at hb'
        · exact h'
      simpa using ih hm

theorem getElem_indexOf_of_mem {α : Type} [BEq α] [LawfulBEq α] {a : α} :
    ∀ {l : List α} (h : a ∈ l) (hlt : l.indexOf a < l.length), l[l.indexOf a] = a := by
  intro l
  induction l with
  | nil => intro h; cases h
  | cons b bs ih =>
    intro h hlt
    by_cases hb : b == a
    · have hba : b = a := by simpa using hb
      subst hba
      have h0 : (b :: bs).indexOf b = 0 := by
        rw [List.indexOf_cons]
        simp
      simp [h0]
    · have hb' : (b == a) = false := by simpa using hb
      have h0 : (b :: bs).indexOf a = bs.indexOf a + 1 := by
        rw [List.indexOf_cons, hb']
        rfl
      have hm : a ∈ bs := by
        rcases List.mem_cons.1 h with rfl | h'
        · simp at hb'
        · exact h'
      have hlt' : bs.indexOf a < bs.length := indexOf_lt_of_mem hm
      simp only [h0, List.getElem_cons_succ]
      exact ih hm hlt'

theorem indexOf_getElem_nodup {α : Type} [BEq α] [LawfulBEq α] :
    ∀ {l : List α}, l.Nodup → ∀ i (hi : i < l.length), l.indexOf l[i] = i := by
  intro l
  induction l with
  | nil => intro _ i hi; simp at hi
  | cons b bs ih =>
    intro hnd i hi
    rcases hnd with _ | ⟨hb, hnd⟩
    cases i with
    | zero => simp [List.indexOf_cons]
    | succ i =>
      have hi' : i < bs.length := by simpa using hi
      simp only [List.getElem_cons_succ]
      have hm : bs[i] ∈ bs := List.getElem_mem _
      have hne' : (b == bs[i]) = false := by
        by_contra hcon
        have hbeq : b = bs[i] := by simpa using hcon
        exact (hb bs[i] hm) hbeq
      rw [List.indexOf_cons, hne']
      simp only [cond_false]
      rw [ih hnd i hi']

/-! ## Aligned colorings and canonical recoloring under relabeling -/

theorem colorOf_map {T : List (List Nat)} (hT : T.Nodup) (f : List Nat → Nat)
    {t : List Nat} (ht : t ∈ T) : colorOf T (T.map f) t = f t := by
  unfold colorOf
  have h1 : T.indexOf t < T.length := indexOf_lt_of_mem ht
  rw [getD_map_lt f 0 [] h1, getD_lt_eq_getElem [] h1, getElem_indexOf_of_mem ht h1]

theorem aligned_ext {T : List (List Nat)} (hT : T.Nodup) {u v : List Nat}
    (hu : u.length = T.length) (hv : v.length = T.length)
    (h : ∀ t ∈ T, colorOf T u t = colorOf T v t) : u = v := by
  apply List.ext_getElem (by omega)
  intro i h1 h2
  have hiT : i < T.length := by omega
  have hti : T[i] ∈ T := List.getElem_mem _
  have h3 := h _ hti
  unfold colorOf at h3
  rw [indexOf_getElem_nodup hT i (by omega)] at h3
  rw [getD_lt_eq_getElem 0 h1, getD_lt_eq_getElem 0 h2] at h3
  exact h3

theorem aligned_repr {T : List (List Nat)} (hT : T.Nodup) {u : List Nat}
    (hu : u.length = T.length) : u = T.map (fun t => colorOf T u t) := by
  apply List.ext_getElem (by simp [hu])
  intro i h1 h2
  rw [List.getElem_map]
  unfold colorOf
  rw [indexOf_getElem_nodup hT i (by simp at h2; omega)]
  exact (getD_lt_eq_getElem 0 h1).symm

theorem rankColorsB_length {α : Type} [DecidableEq α] (le : α → α → Bool)
    (sigs : List α) : (rankColorsB le sigs).length = sigs.length := by
  simp [rankColorsB]

theorem rankColorsB_map {α : Type} [DecidableEq α] (le : α → α → Bool)
    (T : List (List Nat)) (f : List Nat → α) :
    rankColorsB le (T.map f) = T.map (fun t => (dedupSortB le (T.map f)).indexOf (f t)) := by
  unfold rankColorsB
  rw [List.map_map]
  rfl

/-- Transport of canonically assigned colors along the tuple bijection
induced by a node bijection: if the per-tuple keys correspond, so do the
assigned colors. -/
theorem rank_transport {n k : Nat} {σ : Nat → Nat} (hb : RangeBij n σ)
    {κ : Type} [DecidableEq κ] {le : κ → κ → Bool} (hle : LeOK le)
    (fH fG : List Nat → κ)
    (hpoint : ∀ t ∈ tuplesK k (List.range n), fH (t.map σ) = fG t) :
    ∀ t ∈ tuplesK k (List.range n),
      colorOf (tuplesK k (List.range n))
        (rankColorsB le ((tuplesK k (List.range n)).map fH)) (t.map σ)
      = colorOf (tuplesK k (List.range n))
        (rankColorsB le ((tuplesK k (List.range n)).map fG)) t := by
  intro t ht
  have hnd : (tuplesK k (List.range n)).Nodup := nodup_tuplesK (List.nodup_range n)
  have hkeys : dedupSortB le ((tuplesK k (List.range n)).map fH)
      = dedupSortB le ((tuplesK k (List.range n)).map fG) := by
    apply dedupSortB_eq_of_perm hle
    have h1 := (tuples_map_perm (k := k) hb).map fH
    rw [List.map_map] at h1
    have h2 : (tuplesK k (List.range n)).map (fH ∘ fun t => t.map σ)
        = (tuplesK k (List.range n)).map fG :=
      List.map_congr_left (fun t ht => hpoint t ht)
    rw [h2] at h1
    exact h1.symm
  rw [rankColorsB_map, rankColorsB_map,
    colorOf_map hnd _ (tuplesK_map_mem hb ht), colorOf_map hnd _ ht,
    hpoint t ht, hkeys]

/-! ## Invariance of the k ≥ 2 path under relabeling -/

theorem atomic_relabel {G H : SGraph} {σ : Nat → Nat} (h : AdjRelabel G H σ)
    {k : Nat} {t : List Nat} (ht : t ∈ tuplesK k (List.range G.n)) :
    atomic_type (t.map σ) H = atomic_type t G := by
  unfold atomic_type
  rw [List.length_map]
  apply List.flatMap_congr
  intro i hi
  apply List.map_congr_left
  intro j hj
  have hij : i < t.length := List.mem_range.1 hi
  have hjj : j < t.length := List.mem_range.1 (List.mem_of_mem_drop hj)
  rw [getD_map_lt σ 0 0 hij, getD_map_lt σ 0 0 hjj]
  have hti : t.getD i 0 < G.n := by
    rw [getD_lt_eq_getElem 0 hij]
    exact tuplesK_mem_lt ht (List.getElem_mem _)
  have htj : t.getD j 0 < G.n := by
    rw [getD_lt_eq_getElem 0 hjj]
    exact tuplesK_mem_lt ht (List.getElem_mem _)
  rw [h.adj _ hti _ htj]

theorem set_mem_tuplesK {n k : Nat} {t : List Nat} (ht : t ∈ tuplesK k (List.range n))
    {i w : Nat} (hw : w < n) : t.set i w ∈ tuplesK k (List.range n) := by
  rcases mem_tuplesK.1 ht with ⟨h1, h2⟩
  refine mem_tuplesK.2 ⟨by simp [h1], ?_⟩
  intro x hx
  rcases List.mem_or_eq_of_mem_set hx with hx' | rfl
  · exact h2 x hx'
  · exact List.mem_range.2 hw

theorem stepSig_relabel {G H : SGraph} {σ : Nat → Nat} (h : AdjRelabel G H σ)
    {k : Nat} {cH cG : List Nat}
    (hRel : ∀ t ∈ tuplesK k (List.range G.n),
      colorOf (tuplesK k (List.range G.n)) cH (t.map σ)
        = colorOf (tuplesK k (List.range G.n)) cG t)
    {t : List Nat} (ht : t ∈ tuplesK k (List.range G.n)) :
    stepSig H k (tuplesK k (List.range G.n)) cH (t.map σ)
      = stepSig G k (tuplesK k (List.range G.n)) cG t := by
  unfold stepSig
  rw [hRel t ht, h.hn]
  congr 1
  apply List.flatMap_congr
  intro i _
  have hp := h.bij.reindex_perm
    (fun w => colorOf (tuplesK k (List.range G.n)) cH ((t.map σ).set i w))
  have heq : (List.range G.n).map
      (fun w => colorOf (tuplesK k (List.range G.n)) cH ((t.map σ).set i (σ w)))
      = (List.range G.n).map
      (fun w => colorOf (tuplesK k (List.range G.n)) cG (t.set i w)) := by
    apply List.map_congr_left
    intro w hw
    rw [← List.map_set]
    exact hRel (t.set i w) (set_mem_tuplesK ht (List.mem_range.1 hw))
  rw [heq] at hp
  exact insSort_eq_of_perm bleOk hp.symm

theorem stepColors_relabel {G H : SGraph} {σ : Nat → Nat} (h : AdjRelabel G H σ)
    {k : Nat} {cH cG : List Nat}
    (hRel : ∀ t ∈ tuplesK k (List.range G.n),
      colorOf (tuplesK k (List.range G.n)) cH (t.map σ)
        = colorOf (tuplesK k (List.range G.n)) cG t) :
    ∀ t ∈ tuplesK k (List.range G.n),
      colorOf (tuplesK k (List.range G.n))
        (stepColors H k (tuplesK k (List.range G.n)) cH) (t.map σ)
      = colorOf (tuplesK k (List.range G.n))
        (stepColors G k (tuplesK k (List.range G.n)) cG) t := by
  unfold stepColors
  exact rank_transport h.bij natListLeB_ok _ _ (fun t ht => stepSig_relabel h hRel ht)

theorem aligned_eq_transport {n k : Nat} {σ : Nat → Nat} (hb : RangeBij n σ)
    {u v u' v' : List Nat}
    (hu : u.length = (tuplesK k (List.range n)).length)
    (hv : v.length = (tuplesK k (List.range n)).length)
    (hu' : u'.length = (tuplesK k (List.range n)).length)
    (hv' : v'.length = (tuplesK k (List.range n)).length)
    (hR1 : ∀ t ∈ tuplesK k (List.range n),
      colorOf (tuplesK k (List.range n)) u (t.map σ) = colorOf (tuplesK k (List.range n)) u' t)
    (hR2 : ∀ t ∈ tuplesK k (List.range n),
      colorOf (tuplesK k (List.range n)) v (t.map σ) = colorOf (tuplesK k (List.range n)) v' t) :
    (u = v) ↔ (u' = v') := by
  have hnd : (tuplesK k (List.range n)).Nodup := nodup_tuplesK (List.nodup_range n)
  constructor
  · intro huv
    apply aligned_ext hnd hu' hv'
    intro t ht
    rw [← hR1 t ht, ← hR2 t ht, huv]
  · intro huv
    apply aligned_ext hnd hu hv
    intro t' ht'
    rcases mapσ_surj_on_tuples hb ht' with ⟨t, ht, rfl⟩
    rw [hR1 t ht, hR2 t ht, huv]

theorem stepColors_length (g : SGraph) (k : Nat) (T : List (List Nat)) (c : List Nat) :
    (stepColors g k T c).length = T.length := by
  simp [stepColors, rankColorsB]

theorem kwlLoop_relabel {G H : SGraph} {σ : Nat → Nat} (h : AdjRelabel G H σ) {k : Nat} :
    ∀ (its : Nat) (cH cG : List Nat),
    cH.length = (tuplesK k (List.range G.n)).length →
    cG.length = (tuplesK k (List.range G.n)).length →
    (∀ t ∈ tuplesK k (List.range G.n),
      colorOf (tuplesK k (List.range G.n)) cH (t.map σ)
        = colorOf (tuplesK k (List.range G.n)) cG t) →
    (∀ t ∈ tuplesK k (List.range G.n),
      colorOf (tuplesK k (List.range G.n))
        (kwlLoop H k (tuplesK k (List.range G.n)) its cH) (t.map σ)
      = colorOf (tuplesK k (List.range G.n))
        (kwlLoop G k (tuplesK k (List.range G.n)) its cG) t)
    ∧ (kwlLoop H k (tuplesK k (List.range G.n)) its cH).length
        = (tuplesK k (List.range G.n)).length
    ∧ (kwlLoop G k (tuplesK k (List.range G.n)) its cG).length
        = (tuplesK k (List.range G.n)).length := by
  intro its
  induction its with
  | zero => exact fun cH cG h1 h2 h3 => ⟨h3, h1, h2⟩
  | succ its ih =>
    intro cH cG h1 h2 h3
    have hstep := stepColors_relabel h h3
    have hlenH := stepColors_length H k (tuplesK k (List.range G.n)) cH
    have hlenG := stepColors_length G k (tuplesK k (List.range G.n)) cG
    have hiff := aligned_eq_transport h.bij hlenH h1 hlenG h2 hstep h3
    by_cases hfix : stepColors G k (tuplesK k (List.range G.n)) cG = cG
    · have hfixH : stepColors H k (tuplesK k (List.range G.n)) cH = cH := hiff.2 hfix
      have eH : kwlLoop H k (tuplesK k (List.range G.n)) (its + 1) cH = cH := by
        simp only [kwlLoop]
        simp [hfixH]
      have eG : kwlLoop G k (tuplesK k (List.range G.n)) (its + 1) cG = cG := by
        simp only [kwlLoop]
        simp [hfix]
      rw [eH, eG]
      exact ⟨h3, h1, h2⟩
    · have hfixH : ¬ stepColors H k (tuplesK k (List.range G.n)) cH = cH :=
        fun hc => hfix (hiff.1 hc)
      have eH : kwlLoop H k (tuplesK k (List.range G.n)) (its + 1) cH
          = kwlLoop H k (tuplesK k (List.range G.n)) its
            (stepColors H k (tuplesK k (List.range G.n)) cH) := by
        simp only [kwlLoop]
        simp [hfixH]
      have eG : kwlLoop G k (tuplesK k (List.range G.n)) (its + 1) cG
          = kwlLoop G k (tuplesK k (List.range G.n)) its
            (stepColors G k (tuplesK k (List.range G.n)) cG) := by
        simp only [kwlLoop]
        simp [hfix]
      rw [eH, eG]
      exact ih _ _ hlenH hlenG hstep

theorem aligned_perm {n k : Nat} {σ : Nat → Nat} (hb : RangeBij n σ) {u u' : List Nat}
    (hu : u.length = (tuplesK k (List.range n)).length)
    (hu' : u'.length = (tuplesK k (List.range n)).length)
    (hRel : ∀ t ∈ tuplesK k (List.range n),
      colorOf (tuplesK k (List.range n)) u (t.map σ)
        = colorOf (tuplesK k (List.range n)) u' t) : u.Perm u' := by
  have hnd : (tuplesK k (List.range n)).Nodup := nodup_tuplesK (List.nodup_range n)
  have e1 : u = (tuplesK k (List.range n)).map
      (fun t => colorOf (tuplesK k (List.range n)) u t) := aligned_repr hnd hu
  have e2 : u' = (tuplesK k (List.range n)).map
      (fun t => colorOf (tuplesK k (List.range n)) u' t) := aligned_repr hnd hu'
  have hp := (tuples_map_perm (k := k) hb).map
    (fun t => colorOf (tuplesK k (List.range n)) u t)
  rw [List.map_map] at hp
  have e4 : (tuplesK k (List.range n)).map
      ((fun t => colorOf (tuplesK k (List.range n)) u t) ∘ (fun t => t.map σ))
      = (tuplesK k (List.range n)).map
      (fun t => colorOf (tuplesK k (List.range n)) u' t) :=
    List.map_congr_left (fun t ht => hRel t ht)
  rw [e4] at hp
  exact (List.Perm.of_eq e1).trans (hp.symm.trans (List.Perm.of_eq e2.symm))

theorem kwl_high_relabel {G H : SGraph} {σ : Nat → Nat} (h : AdjRelabel G H σ)
    (k its : Nat) : kwl_high H k its = kwl_high G k its := by
  show dh_nats (insSort Nat.ble (kwlLoop H k (tuplesK k (List.range H.n)) its
      (rankColorsB natListLeB ((tuplesK k (List.range H.n)).map (fun t => atomic_type t H)))))
    = dh_nats (insSort Nat.ble (kwlLoop G k (tuplesK k (List.range G.n)) its
      (rankColorsB natListLeB ((tuplesK k (List.range G.n)).map (fun t => atomic_type t G)))))
  rw [h.hn]
  have hRel0 := rank_transport (k := k) h.bij natListLeB_ok
    (fun t => atomic_type t H) (fun t => atomic_type t G)
    (fun t ht => atomic_relabel h ht)
  have hl0H : (rankColorsB natListLeB
      ((tuplesK k (List.range G.n)).map (fun t => atomic_type t H))).length
      = (tuplesK k (List.range G.n)).length := by
    rw [rankColorsB_length, List.length_map]
  have hl0G : (rankColorsB natListLeB
      ((tuplesK k (List.range G.n)).map (fun t => atomic_type t G))).length
      = (tuplesK k (List.range G.n)).length := by
    rw [rankColorsB_length, List.length_map]
  have hloop := kwlLoop_relabel h its _ _ hl0H hl0G hRel0
  have hperm := aligned_perm h.bij hloop.2.1 hloop.2.2 hloop.1
  rw [insSort_eq_of_perm bleOk hperm]

theorem k_wl_run_relabel {G H : SGraph} {σ : Nat → Nat} (h : AdjRelabel G H σ)
    (k : Nat) (it : Int) : k_wl_run H k it = k_wl_run G k it := by
  unfold k_wl_run
  rw [h.hn]
  by_cases h3 : k = 1
  · simp only [h3, if_pos]
    exact wl_hash_relabel h _
  · simp only [h3, if_neg, if_false]
    exact kwl_high_relabel h k _

theorem k_wl_relabel {G H : SGraph} {σ : Nat → Nat} (h : AdjRelabel G H σ)
    (k : Nat) (it : Int) : k_wl H k it = k_wl G k it := by
  unfold k_wl
  rw [k_wl_run_relabel h k it]

theorem wlsig_iso {a b : SGraph} (hiso : is_isomorphic a b = true) :
    wlsig a = wlsig b := by
  rcases relabel_of_iso hiso with ⟨σ, hσ⟩
  exact (k_wl_run_relabel hσ 1 (-1)).symm

/-! ## Store invariants -/

theorem lookup_eq_none_iff {s : Store} {k : String} :
    s.lookup k = none ↔ k ∉ s.keys := by
  induction s with
  | nil => simp [Store.keys]
  | cons p rest ih =>
    by_cases hk : k = p.1
    · subst hk
      simp [List.lookup, Store.keys]
    · have hne : (k == p.1) = false := by simpa using hk
      simp [List.lookup, hne, Store.keys, ih, hk]

theorem lookup_of_mem_nodup {s : Store} (hnd : NodupKeys s) {p : String × List SGraph}
    (hp : p ∈ s) : s.lookup p.1 = some p.2 := by
  induction s with
  | nil => cases hp
  | cons q rest ih =>
    rcases List.mem_cons.1 hp with rfl | hp'
    · simp [List.lookup]
    · have hnd' : NodupKeys rest := by
        rcases hnd with _ | ⟨_, h2⟩
        exact h2
      have hkne : p.1 ≠ q.1 := by
        intro hc
        rcases hnd with _ | ⟨h1, _⟩
        exact h1 q.1 (List.mem_map.2 ⟨p, hp', hc⟩) rfl
      have hne : (p.1 == q.1) = false := by simpa using hkne
      simp [List.lookup, hne, ih hnd' hp']

theorem mem_of_lookup {s : Store} {k : String} {b : List SGraph}
    (h : s.lookup k = some b) : (k, b) ∈ s := by
  induction s with
  | nil => simp [List.lookup] at h
  | cons q rest ih =>
    obtain ⟨k0, b0⟩ := q
    by_cases hk : k == k0
    · have hkk : k = k0 := by simpa using hk
      have h1 : List.lookup k ((k0, b0) :: rest) = some b0 := by
        simp [List.lookup, hk]
      rw [h1] at h
      have hb : b0 = b := by injection h
      subst hkk
      subst hb
      exact List.mem_cons_self _ _
    · have hkf : (k == k0) = false := by simpa using hk
      have h1 : List.lookup k ((k0, b0) :: rest) = List.lookup k rest := by
        simp [List.lookup, hkf]
      rw [h1] at h
      exact List.mem_cons_of_mem _ (ih h)

theorem pushG_keys (s : Store) (k : String) (g : SGraph) :
    (s.pushG k g).keys = s.keys := by
  unfold Store.pushG Store.keys
  rw [List.map_map]
  apply List.map_congr_left
  intro p _
  by_cases hp : p.1 = k <;> simp [hp]

theorem lookup_append_of_some {s t : Store} {k : String} {b : List SGraph}
    (h : s.lookup k = some b) : (s ++ t).lookup k = some b := by
  induction s with
  | nil => simp [List.lookup] at h
  | cons q rest ih =>
    obtain ⟨k0, b0⟩ := q
    by_cases hk : k == k0
    · have h1 : List.lookup k ((k0, b0) :: rest) = some b0 := by simp [List.lookup, hk]
      rw [h1] at h
      simpa [List.lookup, hk] using h
    · have hkf : (k == k0) = false := by simpa using hk
      have h1 : List.lookup k ((k0, b0) :: rest) = List.lookup k rest := by
        simp [List.lookup, hkf]
      rw [h1] at h
      simpa [List.lookup, hkf] using ih h

theorem lookup_append_of_none {s t : Store} {k : String}
    (h : s.lookup k = none) : (s ++ t).lookup k = t.lookup k := by
  induction s with
  | nil => simp
  | cons q rest ih =>
    obtain ⟨k0, b0⟩ := q
    by_cases hk : k == k0
    · simp [List.lookup, hk] at h
    · have hkf : (k == k0) = false := by simpa using hk
      have h1 : List.lookup k ((k0, b0) :: rest) = List.lookup k rest := by
        simp [List.lookup, hkf]
      rw [h1] at h
      simpa [List.lookup, hkf] using ih h

theorem lookup_pushG_self {s : Store} {k : String} {b : List SGraph} (g : SGraph)
    (h : s.lookup k = some b) : (s.pushG k g).lookup k = some (b ++ [g]) := by
  induction s with
  | nil => simp [List.lookup] at h
  | cons q rest ih =>
    obtain ⟨k0, b0⟩ := q
    by_cases hk : k == k0
    · have hkk : k = k0 := by simpa using hk
      have h1 : List.lookup k ((k0, b0) :: rest) = some b0 := by simp [List.lookup, hk]
      rw [h1] at h
      have hb : b0 = b := by injection h
      subst hb hkk
      have h2 : Store.pushG ((k, b0) :: rest) k g = (k, b0 ++ [g]) :: Store.pushG rest k g := by
        unfold Store.pushG
        rw [List.map_cons, if_pos rfl]
      rw [h2]
      simp [List.lookup]
    · have hkf : (k == k0) = false := by simpa using hk
      have h1 : List.lookup k ((k0, b0) :: rest) = List.lookup k rest := by
        simp [List.lookup, hkf]
      rw [h1] at h
      have hne : ¬ (k0 = k) := fun hc => by simp [hc] at hkf
      have h2 : Store.pushG ((k0, b0) :: rest) k g = (k0, b0) :: Store.pushG rest k g := by
        unfold Store.pushG
        rw [List.map_cons, if_neg hne]
      rw [h2]
      have h3 : List.lookup k ((k0, b0) :: Store.pushG rest k g)
          = List.lookup k (Store.pushG rest k g) := by
        simp [List.lookup, hkf]
      rw [h3]
      exact ih h

/-! ## Behavior of one insertion -/

theorem add_found_iso {g : SGraph} {s : Store} {bucket : List SGraph}
    (hl : s.lookup (wlsig g) = some bucket)
    (hany : bucket.any (fun g' => is_isomorphic g g') = true) :
    add_element_to_hashes g s = (false, s) := by
  unfold add_element_to_hashes
  simp [hl, hany]

theorem add_new_some {g : SGraph} {s : Store} {bucket : List SGraph}
    (hl : s.lookup (wlsig g) = some bucket)
    (hany : bucket.any (fun g' => is_isomorphic g g') = false) :
    add_element_to_hashes g s = (true, s.pushG (wlsig g) g) := by
  unfold add_element_to_hashes
  simp [hl, hany]

theorem add_new_none {g : SGraph} {s : Store}
    (hl : s.lookup (wlsig g) = none) :
    add_element_to_hashes g s
      = (true, (s ++ [(wlsig g, [])]).pushG (wlsig g) g) := by
  unfold add_element_to_hashes
  have h1 : ((s ++ [(wlsig g, [])]).lookup (wlsig g)) = some [] := by
    rw [lookup_append_of_none hl]
    simp [List.lookup]
  simp [hl, h1]

theorem pushG_append_fresh {s : Store} {h : String} (hnk : h ∉ s.keys) (g : SGraph) :
    (s ++ [(h, [])]).pushG h g = s ++ [(h, [g])] := by
  unfold Store.pushG
  rw [List.map_append]
  congr 1
  · have h2 : ∀ p ∈ s, (if p.1 = h then (p.1, p.2 ++ [g]) else p) = p := by
      intro p hp
      rw [if_neg]
      intro hc
      exact hnk (List.mem_map.2 ⟨p, hp, hc⟩)
    rw [List.map_congr_left h2]
    exact List.map_id s
  · simp

theorem StoreWF.add (g : SGraph) {s : Store} (h : StoreWF s) :
    StoreWF (add_element_to_hashes g s).2 := by
  obtain ⟨hnd, hsig, hbok⟩ := h
  cases hl : s.lookup (wlsig g) with
  | some bucket =>
    cases hany : bucket.any (fun g' => is_isomorphic g g') with
    | true =>
      rw [add_found_iso hl hany]
      exact ⟨hnd, hsig, hbok⟩
    | false =>
      have hall : ∀ g' ∈ bucket, is_isomorphic g g' = false := by
        intro g' hg'
        rcases hiso : is_isomorphic g g' with _ | _
        · rfl
        · have := List.any_eq_true.2 ⟨g', hg', hiso⟩
          rw [hany] at this
          cases this
      rw [add_new_some hl hany]
      refine ⟨?_, ?_, ?_⟩
      · show NodupKeys (s.pushG (wlsig g) g)
        unfold NodupKeys
        rw [pushG_keys]
        exact hnd
      · intro p' hp' g' hg'
        rcases List.mem_map.1 hp' with ⟨p, hp, hfp⟩
        by_cases hpk : p.1 = wlsig g
        · rw [if_pos hpk] at hfp
          subst hfp
          show wlsig g' = p.1
          rcases List.mem_append.1 hg' with hg1 | hg2
          · exact hsig p hp g' hg1
          · rcases List.mem_singleton.1 hg2 with rfl
            exact hpk.symm
        · rw [if_neg hpk] at hfp
          subst hfp
          exact hsig p hp g' hg'
      · intro p' hp'
        rcases List.mem_map.1 hp' with ⟨p, hp, hfp⟩
        by_cases hpk : p.1 = wlsig g
        · rw [if_pos hpk] at hfp
          have hpb : p.2 = bucket := by
            have h1 := lookup_of_mem_nodup hnd hp
            rw [hpk, hl] at h1
            injection h1 with h2
            exact h2.symm
          subst hfp
          show (p.2 ++ [g]).Pairwise _
          rw [List.pairwise_append]
          refine ⟨hbok p hp, List.pairwise_singleton _ _, ?_⟩
          intro g1 hg1 g2 hg2
          rcases List.mem_singleton.1 hg2 with rfl
          have h2 : is_isomorphic g2 g1 = false := hall g1 (hpb ▸ hg1)
          have h3 : is_isomorphic g1 g2 = false := by
            rcases h4 : is_isomorphic g1 g2 with _ | _
            · rfl
            · rw [iso_symm h4] at h2
              cases h2
          exact ⟨h3, h2⟩
        · rw [if_neg hpk] at hfp
          subst hfp
          exact hbok p hp
  | none =>
    have hnk : wlsig g ∉ s.keys := lookup_eq_none_iff.1 hl
    rw [add_new_none hl]
    have h1 : ((s ++ [(wlsig g, [])]).pushG (wlsig g) g) = s ++ [(wlsig g, [g])] :=
      pushG_append_fresh hnk g
    rw [h1]
    refine ⟨?_, ?_, ?_⟩
    · unfold NodupKeys Store.keys
      rw [List.map_append]
      refine List.Nodup.append hnd (by simp) ?_
      intro a ha hb
      rcases List.mem_singleton.1 (by simpa using hb) with rfl
      exact hnk ha
    · intro p' hp' g' hg'
      rcases List.mem_append.1 hp' with hp1 | hp2
      · exact hsig p' hp1 g' hg'
      · rcases List.mem_singleton.1 hp2 with rfl
        rcases List.mem_singleton.1 hg' with rfl
        rfl
    · intro p' hp'
      rcases List.mem_append.1 hp' with hp1 | hp2
      · exact hbok p' hp1
      · rcases List.mem_singleton.1 hp2 with rfl
        exact List.pairwise_singleton _ _

theorem reachable_WF {s : Store} (h : Reachable s) : StoreWF s := by
  induction h with
  | empty =>
    refine ⟨List.nodup_nil, ?_, ?_⟩ <;> intro p hp <;> cases hp
  | step g s _ ih => exact ih.add g

/-- Idempotent rejection: inserting a graph isomorphic to a retained one
returns `false` and leaves the store untouched. -/
theorem add_of_retained_iso {s : Store} (hWF : StoreWF s) {g : SGraph}
    (h : ∃ p ∈ s, ∃ g' ∈ p.2, is_isomorphic g g' = true) :
    add_element_to_hashes g s = (false, s) := by
  obtain ⟨hnd, hsig, _⟩ := hWF
  rcases h with ⟨p, hp, g', hg', hiso⟩
  have h1 : wlsig g = p.1 := by
    rw [wlsig_iso hiso]
    exact hsig p hp g' hg'
  have h2 : s.lookup (wlsig g) = some p.2 := by
    rw [h1]
    exact lookup_of_mem_nodup hnd hp
  exact add_found_iso h2 (List.any_eq_true.2 ⟨g', hg', hiso⟩)

/-- All graphs retained anywhere in a reachable store are pairwise
non-isomorphic: within a bucket by the oracle checks, across buckets
because isomorphic graphs share their 1-WL signature key. -/
theorem reachable_pairwise_noniso {s : Store} (h : Reachable s) :
    s.allGraphs.Pairwise (fun g1 g2 => is_isomorphic g1 g2 = false) := by
  obtain ⟨hnd, hsig, hbok⟩ := reachable_WF h
  unfold Store.allGraphs
  rw [List.pairwise_flatten]
  constructor
  · intro l hl
    rcases List.mem_map.1 hl with ⟨p, hp, rfl⟩
    exact (hbok p hp).imp (fun hb => hb.1)
  · rw [List.pairwise_map]
    have h1 : s.Pairwise (fun p q => p.1 ≠ q.1) := by
      have h2 : (s.map Prod.fst).Nodup := hnd
      exact List.pairwise_map.1 h2
    refine List.Pairwise.imp_of_mem ?_ h1
    intro p q hp hq hpq g1 hg1 g2 hg2
    rcases hc : is_isomorphic g1 g2 with _ | _
    · rfl
    · exfalso
      apply hpq
      rw [← hsig p hp g1 hg1, ← hsig q hq g2 hg2]
      exact wlsig_iso hc

/-! ## The generator preserves reachability; fuel does not matter -/

theorem foldl_preserve {β : Type} (P : Store → Prop) (f : Store → β → Store)
    (hf : ∀ st b, P st → P (f st b)) :
    ∀ (l : List β) (st : Store), P st → P (l.foldl f st) := by
  intro l
  induction l with
  | nil => intro st h; exact h
  | cons b bs ih => intro st h; exact ih (f st b) (hf st b h)

theorem rgFuel_reachable :
    ∀ (fuel : Nat) (e : SGraph) (m : Nat) {s : Store}, Reachable s →
      Reachable (rgFuel fuel e m s) := by
  intro fuel
  induction fuel with
  | zero => intro e m s h; exact h
  | succ fuel ih =>
    intro e m s h
    rw [rgFuel]
    by_cases hg : e.n + 1 > m
    · rw [if_pos hg]; exact h
    · rw [if_neg hg]
      apply foldl_preserve Reachable
      · intro st i hst
        show Reachable (if (add_element_to_hashes (candidate e i) st).1
            then rgFuel fuel (candidate e i) m (add_element_to_hashes (candidate e i) st).2
            else (add_element_to_hashes (candidate e i) st).2)
        have hst' : Reachable (add_element_to_hashes (candidate e i) st).2 :=
          Reachable.step _ _ hst
        by_cases hadd : (add_element_to_hashes (candidate e i) st).1
        · rw [if_pos hadd]; exact ih _ m hst'
        · rw [if_neg hadd]; exact hst'
      · exact h

theorem generate_store_reachable (m : Nat) : Reachable (generate_store m) := by
  unfold generate_store recursive_generate
  exact rgFuel_reachable _ _ m (Reachable.step _ _ Reachable.empty)

/-- The fuel value is irrelevant once it covers the remaining recursion
depth: the embedding computes the same store as the unbounded source
recursion, whose depth is capped by the `node_count > max_size` guard. -/
theorem rgFuel_fuel_irrelevant :
    ∀ (f1 f2 : Nat) (e : SGraph) (m : Nat) (s : Store),
      m + 1 ≤ e.n + f1 → m + 1 ≤ e.n + f2 →
      rgFuel f1 e m s = rgFuel f2 e m s := by
  intro f1
  induction f1 with
  | zero =>
    intro f2 e m s h1 h2
    cases f2 with
    | zero => rfl
    | succ f2 =>
      have hg : e.n + 1 > m := by omega
      rw [rgFuel, rgFuel, if_pos hg]
  | succ f1 ih =>
    intro f2 e m s h1 h2
    cases f2 with
    | zero =>
      have hg : e.n + 1 > m := by omega
      rw [rgFuel, rgFuel, if_pos hg]
    | succ f2 =>
      rw [rgFuel, rgFuel]
      by_cases hg : e.n + 1 > m
      · rw [if_pos hg, if_pos hg]
      · rw [if_neg hg, if_neg hg]
        have hfun : (fun st i =>
              let g := candidate e i
              let pr := add_element_to_hashes g st
              if pr.1 then rgFuel f1 g m pr.2 else pr.2)
            = (fun st i =>
              let g := candidate e i
              let pr := add_element_to_hashes g st
              if pr.1 then rgFuel f2 g m pr.2 else pr.2) := by
          funext st i
          show (if (add_element_to_hashes (candidate e i) st).1
              then rgFuel f1 (candidate e i) m (add_element_to_hashes (candidate e i) st).2
              else (add_element_to_hashes (candidate e i) st).2)
            = (if (add_element_to_hashes (candidate e i) st).1
              then rgFuel f2 (candidate e i) m (add_element_to_hashes (candidate e i) st).2
              else (add_element_to_hashes (candidate e i) st).2)
          have hcn : (candidate e i).n = e.n + 1 := rfl
          by_cases hadd : (add_element_to_hashes (candidate e i) st).1
          · rw [if_pos hadd, if_pos hadd]
            exact ih f2 (candidate e i) m _ (by omega) (by omega)
          · rw [if_neg hadd, if_neg hadd]
        rw [hfun]

/-! ## The 1-WL signature determines the node count -/

theorem takeWhile_replicate_hash (a : Nat) (r : List Char) :
    (List.replicate a '#' ++ ';' :: r).takeWhile (fun c => c == '#')
      = List.replicate a '#' := by
  induction a with
  | zero => simp [List.takeWhile_cons]
  | succ a ih =>
    rw [List.replicate_succ, List.cons_append, List.takeWhile_cons]
    simp [ih]

theorem dh_counts_sum {l1 l2 : List (String × Nat)} (h : dh_counts l1 = dh_counts l2) :
    sumCounts l1 = sumCounts l2 := by
  have hdata : List.replicate (sumCounts l1) '#' ++ ';' :: (String.join (l1.map encPair)).data
      = List.replicate (sumCounts l2) '#' ++ ';' :: (String.join (l2.map encPair)).data :=
    congrArg String.data h
  have h1 := congrArg (List.takeWhile (fun c => c == '#')) hdata
  rw [takeWhile_replicate_hash, takeWhile_replicate_hash] at h1
  have h2 := congrArg List.length h1
  simpa using h2

theorem sumCounts_append (a b : List (String × Nat)) :
    sumCounts (a ++ b) = sumCounts a + sumCounts b := by
  simp [sumCounts]

theorem sumCounts_labelCounts (ls : List String) :
    sumCounts (labelCounts ls) = ls.length := by
  unfold sumCounts labelCounts
  have h0 : ((dedupSortB strLeB ls).map (fun s => (s, ls.count s))).map (fun p => p.2)
      = (dedupSortB strLeB ls).map (fun s => ls.count s) := by
    rw [List.map_map]
    rfl
  rw [h0]
  have h1 : ((dedupSortB strLeB ls).map (fun s => ls.count s)).sum
      = (ls.dedup.map (fun s => ls.count s)).sum :=
    ((dedupSortB_perm_dedup strLeB ls).map _).sum_eq
  rw [h1]
  exact List.sum_map_count_dedup_eq_length ls

theorem wlRound_length (g : SGraph) (labels : List String) :
    (wlRound g labels).length = g.n := by
  simp [wlRound]

theorem wlIter_acc_sum (g : SGraph) : ∀ r, sumCounts (wlIter g r).2 = r * g.n
  | 0 => by simp [wlIter, sumCounts]
  | r + 1 => by
    show sumCounts ((wlIter g r).2 ++ labelCounts (wlRound g (wlIter g r).1)) = (r + 1) * g.n
    rw [sumCounts_append, wlIter_acc_sum g r, sumCounts_labelCounts, wlRound_length]
    ring

theorem wlsig_eq_hash (g : SGraph) : wlsig g = weisfeiler_lehman_graph_hash g g.n := by
  unfold wlsig k_wl_run
  norm_num

/-- Equal bucket keys force equal node counts: the total of the per-round
counters is the square of the node count, and it is recoverable from the
modelled hash output. -/
theorem wlsig_node_count {g1 g2 : SGraph} (h : wlsig g1 = wlsig g2) : g1.n = g2.n := by
  rw [wlsig_eq_hash, wlsig_eq_hash] at h
  unfold weisfeiler_lehman_graph_hash at h
  have h1 := dh_counts_sum h
  rw [wlIter_acc_sum, wlIter_acc_sum] at h1
  exact Nat.mul_self_inj.1 h1

/-! ## The family filter: per-key behavior and order independence -/

theorem eraseKey_lookup_self (s : Store) (k : String) :
    (s.eraseKey k).lookup k = none := by
  induction s with
  | nil => rfl
  | cons q rest ih =>
    rw [Store.eraseKey]
    by_cases hk : q.1 = k
    · rw [if_pos hk]
      exact ih
    · rw [if_neg hk]
      have hne : (k == q.1) = false := by
        have h2 : k ≠ q.1 := fun hc => hk hc.symm
        simpa using h2
      have h1 : List.lookup k (q :: Store.eraseKey rest k)
          = List.lookup k (Store.eraseKey rest k) := by
        obtain ⟨k0, b0⟩ := q
        simp only [List.lookup, hne]
      rw [h1]
      exact ih

theorem eraseKey_lookup_ne (s : Store) {k k' : String} (h : k' ≠ k) :
    (s.eraseKey k).lookup k' = s.lookup k' := by
  induction s with
  | nil => rfl
  | cons q rest ih =>
    rw [Store.eraseKey]
    by_cases hk : q.1 = k
    · rw [if_pos hk]
      have hne : (k' == q.1) = false := by
        have h2 : k' ≠ q.1 := by rw [hk]; exact h
        simpa using h2
      have h1 : List.lookup k' (q :: rest) = List.lookup k' rest := by
        obtain ⟨k0, b0⟩ := q
        simp only [List.lookup] at *
        rw [hne]
      rw [h1]
      exact ih
    · rw [if_neg hk]
      obtain ⟨k0, b0⟩ := q
      by_cases hq : k' == k0
      · simp only [List.lookup, hq]
      · have hq' : (k' == k0) = false := by simpa using hq
        simp only [List.lookup, hq']
        exact ih

theorem eraseKey_keys_sublist (s : Store) (k : String) :
    (s.eraseKey k).keys.Sublist s.keys := by
  induction s with
  | nil => simp [Store.eraseKey]
  | cons q rest ih =>
    rw [Store.eraseKey]
    by_cases hk : q.1 = k
    · rw [if_pos hk]
      exact ih.trans (List.sublist_cons_self q.1 (Store.keys rest))
    · rw [if_neg hk]
      exact ih.cons₂ q.1

theorem replaceB_lookup_self {s : Store} {k : String} {b0 : List SGraph}
    (hl : s.lookup k = some b0) (b : List SGraph) :
    (s.replaceB k b).lookup k = some b := by
  induction s with
  | nil => simp [List.lookup] at hl
  | cons q rest ih =>
    obtain ⟨k0, b1⟩ := q
    by_cases hk : k == k0
    · have hkk : k = k0 := by simpa using hk
      subst hkk
      have h2 : Store.replaceB ((k, b1) :: rest) k b = (k, b) :: Store.replaceB rest k b := by
        unfold Store.replaceB
        rw [List.map_cons, if_pos rfl]
      rw [h2]
      simp [List.lookup]
    · have hkf : (k == k0) = false := by simpa using hk
      have h1 : List.lookup k ((k0, b1) :: rest) = List.lookup k rest := by
        simp only [List.lookup, hkf]
      rw [h1] at hl
      have hne : ¬ (k0 = k) := fun hc => by simp [hc] at hkf
      have h2 : Store.replaceB ((k0, b1) :: rest) k b = (k0, b1) :: Store.replaceB rest k b := by
        unfold Store.replaceB
        rw [List.map_cons, if_neg hne]
      rw [h2]
      have h3 : List.lookup k ((k0, b1) :: Store.replaceB rest k b)
          = List.lookup k (Store.replaceB rest k b) := by
        simp only [List.lookup, hkf]
      rw [h3]
      exact ih hl

theorem replaceB_lookup_ne (s : Store) {k k' : String} (h : k' ≠ k) (b : List SGraph) :
    (s.replaceB k b).lookup k' = s.lookup k' := by
  induction s with
  | nil => rfl
  | cons q rest ih =>
    obtain ⟨k0, b1⟩ := q
    by_cases hk : k0 = k
    · subst hk
      have h2 : Store.replaceB ((k0, b1) :: rest) k0 b = (k0, b) :: Store.replaceB rest k0 b := by
        unfold Store.replaceB
        rw [List.map_cons, if_pos rfl]
      rw [h2]
      have hne : (k' == k0) = false := by simpa using h
      simp only [List.lookup, hne]
      exact ih
    · have h2 : Store.replaceB ((k0, b1) :: rest) k b = (k0, b1) :: Store.replaceB rest k b := by
        unfold Store.replaceB
        rw [List.map_cons, if_neg hk]
      rw [h2]
      by_cases hq : k' == k0
      · simp only [List.lookup, hq]
      · have hq' : (k' == k0) = false := by simpa using hq
        simp only [List.lookup, hq']
        exact ih

theorem replaceB_keys (s : Store) (k : String) (b : List SGraph) :
    (s.replaceB k b).keys = s.keys := by
  unfold Store.replaceB Store.keys
  rw [List.map_map]
  apply List.map_congr_left
  intro p _
  by_cases hp : p.1 = k <;> simp [hp]

theorem filterStep_eq_none {m : Nat} {s : Store} {k : String}
    (hl : s.lookup k = none) : filterStep m s k = s := by
  unfold filterStep
  rw [hl]

theorem filterStep_eq_of_lookup {m : Nat} {s : Store} {k : String} {bucket : List SGraph}
    (hl : s.lookup k = some bucket) :
    filterStep m s k = (match filterResultB m bucket with
      | none => s.eraseKey k
      | some fg => s.replaceB k fg) := by
  unfold filterStep
  rw [hl]

theorem filterStep_lookup_self (m : Nat) (s : Store) (k : String) :
    (filterStep m s k).lookup k = (s.lookup k).bind (filterResultB m) := by
  cases hl : s.lookup k with
  | none => rw [filterStep_eq_none hl, hl]; rfl
  | some bucket =>
    rw [filterStep_eq_of_lookup hl]
    cases hf : filterResultB m bucket with
    | none => simp [eraseKey_lookup_self, hf]
    | some fg => simp [replaceB_lookup_self hl fg, hf]

theorem filterStep_lookup_ne (m : Nat) (s : Store) {k k' : String} (h : k' ≠ k) :
    (filterStep m s k).lookup k' = s.lookup k' := by
  cases hl : s.lookup k with
  | none => rw [filterStep_eq_none hl]
  | some bucket =>
    rw [filterStep_eq_of_lookup hl]
    cases hf : filterResultB m bucket with
    | none => exact eraseKey_lookup_ne s h
    | some fg => exact replaceB_lookup_ne s h fg

theorem filterStep_nodup (m : Nat) {s : Store} (hnd : NodupKeys s) (k : String) :
    NodupKeys (filterStep m s k) := by
  cases hl : s.lookup k with
  | none => rw [filterStep_eq_none hl]; exact hnd
  | some bucket =>
    rw [filterStep_eq_of_lookup hl]
    cases hf : filterResultB m bucket with
    | none => exact hnd.sublist (eraseKey_keys_sublist s k)
    | some fg =>
      show NodupKeys (s.replaceB k fg)
      unfold NodupKeys
      rw [replaceB_keys]
      exact hnd

/-- Each key of the snapshot is processed independently: the final binding
of a key depends only on its original bucket, not on the processing
order. -/
theorem filter_store_lookup (m : Nat) :
    ∀ (order : List String) (s : Store), order.Nodup →
      ∀ k, (filter_store m order s).lookup k
        = if k ∈ order then (s.lookup k).bind (filterResultB m) else s.lookup k := by
  intro order
  induction order with
  | nil => intro s _ k; simp [filter_store]
  | cons k0 rest ih =>
    intro s hnd k
    rcases hnd with _ | ⟨hk0, hnd'⟩
    show (filter_store m rest (filterStep m s k0)).lookup k = _
    rw [ih _ hnd' k]
    by_cases hk : k ∈ rest
    · rw [if_pos hk, if_pos (List.mem_cons_of_mem _ hk)]
      have hne : k ≠ k0 := fun hc => (hk0 k hk) hc.symm
      rw [filterStep_lookup_ne m s hne]
    · rw [if_neg hk]
      by_cases hkk : k = k0
      · subst hkk
        rw [if_pos (List.mem_cons_self _ _), filterStep_lookup_self]
      · have hnm : k ∉ k0 :: rest := by
          intro hc
          rcases List.mem_cons.1 hc with hc1 | hc2
          · exact hkk hc1
          · exact hk hc2
        rw [if_neg hnm, filterStep_lookup_ne m s hkk]

theorem filter_store_nodup (m : Nat) (order : List String) {s : Store}
    (hnd : NodupKeys s) : NodupKeys (filter_store m order s) :=
  foldl_preserve NodupKeys (filterStep m) (fun st b h => filterStep_nodup m h b) order s hnd

/-! ## Stabilization of the k ≥ 2 refinement loop -/

theorem stepIter_fixed {g : SGraph} {k : Nat} {T : List (List Nat)} {c : List Nat}
    (h : stepColors g k T c = c) : ∀ r, stepIter g k T r c = c := by
  intro r
  induction r with
  | zero => rfl
  | succ r ih =>
    show stepIter g k T r (stepColors g k T c) = c
    rw [h]
    exact ih

theorem kwlLoop_fixed {g : SGraph} {k : Nat} {T : List (List Nat)} {c : List Nat}
    (h : stepColors g k T c = c) : ∀ fuel, kwlLoop g k T fuel c = c := by
  intro fuel
  cases fuel with
  | zero => rfl
  | succ fuel =>
    rw [kwlLoop]
    simp [h]

/-- Once a round reproduces the previous coloring, the early-stop loop
has already converged: with any fuel at least the stabilization round,
the loop computes exactly the stabilized coloring, and further rounds
neither execute nor change the outcome. -/
theorem kwlLoop_of_stable (g : SGraph) (k : Nat) (T : List (List Nat)) :
    ∀ (r fuel : Nat) (c : List Nat), r ≤ fuel →
      stepColors g k T (stepIter g k T r c) = stepIter g k T r c →
      kwlLoop g k T fuel c = stepIter g k T r c := by
  intro r
  induction r with
  | zero => intro fuel c _ hstab; exact kwlLoop_fixed hstab fuel
  | succ r ih =>
    intro fuel c hle hstab
    cases fuel with
    | zero => omega
    | succ fuel =>
      rw [kwlLoop]
      by_cases hfix : stepColors g k T c = c
      · simp only [hfix, if_pos]
        have h1 : stepIter g k T (r + 1) c = c := by
          show stepIter g k T r (stepColors g k T c) = c
          rw [hfix]
          exact stepIter_fixed hfix r
        rw [h1]
      · simp only [if_neg hfix]
        have h2 : stepIter g k T (r + 1) c = stepIter g k T r (stepColors g k T c) := rfl
        rw [h2] at hstab ⊢
        exact ih fuel (stepColors g k T c) (by omega) hstab

/-! ## The claims -/

/-- C1: Soundness of the signature — for every simple graph G, every node
relabeling H of G (equivalently, any H the Oracle reports isomorphic to G),
every k ≥ 1 and every valid iterations value (the -1 sentinel or ≥ 1),
`k_wl` produces identical signature strings on G and H. -/
theorem signature_soundness (G H : SGraph) (k : Nat) (it : Int)
    (hG : G.Simple) (hH : H.Simple) (hiso : is_isomorphic G H = true)
    (hk : 1 ≤ k) (hit : it = -1 ∨ 1 ≤ it) :
    k_wl G k it = k_wl H k it := by
  rcases relabel_of_iso hiso with ⟨σ, hσ⟩
  exact (k_wl_relabel hσ k it).symm

theorem signature_soundness_witness :
    SGraph.Simple ⟨2, [(0, 1)]⟩ ∧ SGraph.Simple ⟨2, [(1, 0)]⟩ ∧
    is_isomorphic ⟨2, [(0, 1)]⟩ ⟨2, [(1, 0)]⟩ = true ∧ 1 ≤ 1 ∧
    ((-1 : Int) = -1 ∨ 1 ≤ (-1 : Int)) ∧
    k_wl ⟨2, [(0, 1)]⟩ 1 (-1) = k_wl ⟨2, [(1, 0)]⟩ 1 (-1) :=
  ⟨by decide, by decide, by decide, by decide, Or.inl rfl,
    signature_soundness ⟨2, [(0, 1)]⟩ ⟨2, [(1, 0)]⟩ 1 (-1)
      (by decide) (by decide) (by decide) (by decide) (Or.inl rfl)⟩

/-- C2: Bucket invariant — in every store reachable from the empty store
by `add_element_to_hashes` insertions, no two graphs retained in the same
bucket are isomorphic to each other (in either direction). -/
theorem bucket_invariant {s : Store} (h : Reachable s) :
    ∀ p ∈ s, p.2.Pairwise
      (fun g1 g2 => is_isomorphic g1 g2 = false ∧ is_isomorphic g2 g1 = false) :=
  (reachable_WF h).2.2

theorem bucket_invariant_witness :
    Reachable (add_element_to_hashes ⟨1, []⟩ []).2 ∧
    ∀ p ∈ (add_element_to_hashes ⟨1, []⟩ []).2, p.2.Pairwise
      (fun g1 g2 => is_isomorphic g1 g2 = false ∧ is_isomorphic g2 g1 = false) :=
  ⟨Reachable.step _ _ Reachable.empty,
    bucket_invariant (Reachable.step _ _ Reachable.empty)⟩

/-- C7: Idempotence and atomicity of insertion — on any reachable store,
inserting a graph isomorphic to some graph already retained returns
`false` and returns the store unchanged. -/
theorem insertion_idempotent {s : Store} (hs : Reachable s) {g : SGraph}
    (h : ∃ p ∈ s, ∃ g' ∈ p.2, is_isomorphic g g' = true) :
    add_element_to_hashes g s = (false, s) :=
  add_of_retained_iso (reachable_WF hs) h

theorem insertion_idempotent_witness :
    Reachable (add_element_to_hashes ⟨1, []⟩ []).2 ∧
    (∃ p ∈ (add_element_to_hashes ⟨1, []⟩ []).2, ∃ g' ∈ p.2,
      is_isomorphic ⟨1, []⟩ g' = true) ∧
    add_element_to_hashes ⟨1, []⟩ (add_element_to_hashes ⟨1, []⟩ []).2
      = (false, (add_element_to_hashes ⟨1, []⟩ []).2) := by
  have hex : ∃ p ∈ (add_element_to_hashes ⟨1, []⟩ []).2, ∃ g' ∈ p.2,
      is_isomorphic ⟨1, []⟩ g' = true := by decide
  exact ⟨Reachable.step _ _ Reachable.empty, hex,
    insertion_idempotent (Reachable.step _ _ Reachable.empty) hex⟩

/-- C8: Contract violations abort immediately — `k_wl` yields no result
exactly when `k < 1` or `iterations` is neither the -1 sentinel nor ≥ 1,
and `generate_graphs` yields no result exactly when `max_size < 1`; with
valid arguments no abort occurs (a result is always produced). -/
theorem contract_violations :
    (∀ (g : SGraph) (k : Nat) (it : Int),
      k_wl g k it = none ↔ (k < 1 ∨ (it ≠ -1 ∧ it < 1))) ∧
    (∀ m : Nat, generate_graphs m = none ↔ m < 1) := by
  constructor
  · intro g k it
    unfold k_wl
    by_cases h1 : k < 1
    · simp [h1]
    · by_cases h2 : it ≠ -1 ∧ it < 1 <;> simp [h1, h2]
  · intro m
    unfold generate_graphs
    by_cases h : m < 1 <;> simp [h]

/-- C10: Totality on the zero-node graph — for every k ≥ 1, `k_wl` with
the -1 sentinel succeeds on the empty graph: the sentinel resolves to zero
refinement rounds and the result is the hash of an empty counter sequence
(k = 1) or of an empty color multiset (k ≥ 2). -/
theorem zero_node_total (k : Nat) (hk : 1 ≤ k) :
    k_wl ⟨0, []⟩ k (-1) = some (if k = 1 then dh_counts [] else dh_nats []) := by
  have h1 : ¬ k < 1 := by omega
  unfold k_wl
  rw [if_neg h1]
  have h2 : ¬ ((-1 : Int) ≠ -1 ∧ (-1 : Int) < 1) := by simp
  rw [if_neg h2]
  unfold k_wl_run
  have h3 : (if (-1 : Int) = -1 then (SGraph.mk 0 []).n else (-1 : Int).toNat) = 0 := by
    rw [if_pos rfl]
  rw [h3]
  by_cases hk1 : k = 1
  · subst hk1
    rw [if_pos rfl, if_pos rfl]
    rfl
  · rw [if_neg hk1, if_neg hk1]
    have ht : tuplesK k (List.range (SGraph.mk 0 []).n) = [] := by
      cases k with
      | zero => omega
      | succ k => rfl
    unfold kwl_high
    rw [ht]
    rfl

theorem zero_node_total_witness :
    1 ≤ 2 ∧ k_wl ⟨0, []⟩ 2 (-1) = some (if 2 = 1 then dh_counts [] else dh_nats []) :=
  ⟨by decide, zero_node_total 2 (by decide)⟩

/-- C4 counterexample: for k = 1 the claim fails. On the 2-node empty
graph the label partition is already stable (all labels equal initially
and after round one), yet the sentinel run (two rounds) differs from
stopping after the stable round — the extra round still contributes to
the signature, and no early stop exists on the k = 1 path. -/
theorem auto_sentinel_k1_counterexample :
    (initLabels ⟨2, []⟩).dedup.length = 1 ∧
    ((wlIter ⟨2, []⟩ 1).1).dedup.length = 1 ∧
    k_wl ⟨2, []⟩ 1 (-1) ≠ k_wl ⟨2, []⟩ 1 1 := by
  refine ⟨by decide, by decide, by decide⟩

/-- C4 (amended to k ≥ 2): with the -1 sentinel, `k_wl` bounds the
refinement by the node count and stops at the first fixed point — if
round r ≤ n reproduces the previous coloring, the rounds after r are
not performed and do not contribute: the signature is computed from the
stabilized coloring itself. -/
theorem auto_sentinel_stabilizes (g : SGraph) (k : Nat) (hk : 2 ≤ k) (r : Nat)
    (hr : r ≤ g.n)
    (hstab : stepColors g k (tuplesK k (List.range g.n))
        (stepIter g k (tuplesK k (List.range g.n)) r (initColorsK g k))
      = stepIter g k (tuplesK k (List.range g.n)) r (initColorsK g k)) :
    k_wl g k (-1) = some (dh_nats (insSort Nat.ble
      (stepIter g k (tuplesK k (List.range g.n)) r (initColorsK g k)))) := by
  have h1 : ¬ k < 1 := by omega
  unfold k_wl
  rw [if_neg h1]
  have h2 : ¬ ((-1 : Int) ≠ -1 ∧ (-1 : Int) < 1) := by simp
  rw [if_neg h2]
  unfold k_wl_run
  have h3 : (if (-1 : Int) = -1 then g.n else (-1 : Int).toNat) = g.n := by
    rw [if_pos rfl]
  rw [h3]
  have hk1 : ¬ k = 1 := by omega
  rw [if_neg hk1]
  show some (dh_nats (insSort Nat.ble (kwlLoop g k (tuplesK k (List.range g.n)) g.n
      (initColorsK g k))))
    = some (dh_nats (insSort Nat.ble
      (stepIter g k (tuplesK k (List.range g.n)) r (initColorsK g k))))
  rw [kwlLoop_of_stable g k (tuplesK k (List.range g.n)) r g.n (initColorsK g k) hr hstab]

theorem auto_sentinel_stabilizes_witness :
    2 ≤ 2 ∧ 0 ≤ (SGraph.mk 1 []).n ∧
    stepColors ⟨1, []⟩ 2 (tuplesK 2 (List.range 1))
        (stepIter ⟨1, []⟩ 2 (tuplesK 2 (List.range 1)) 0 (initColorsK ⟨1, []⟩ 2))
      = stepIter ⟨1, []⟩ 2 (tuplesK 2 (List.range 1)) 0 (initColorsK ⟨1, []⟩ 2) ∧
    k_wl ⟨1, []⟩ 2 (-1) = some (dh_nats (insSort Nat.ble
      (stepIter ⟨1, []⟩ 2 (tuplesK 2 (List.range 1)) 0 (initColorsK ⟨1, []⟩ 2)))) := by
  have hstab : stepColors ⟨1, []⟩ 2 (tuplesK 2 (List.range 1))
      (stepIter ⟨1, []⟩ 2 (tuplesK 2 (List.range 1)) 0 (initColorsK ⟨1, []⟩ 2))
      = stepIter ⟨1, []⟩ 2 (tuplesK 2 (List.range 1)) 0 (initColorsK ⟨1, []⟩ 2) := by decide
  exact ⟨by decide, by decide, hstab,
    auto_sentinel_stabilizes ⟨1, []⟩ 2 (by decide) 0 (by decide) hstab⟩

/-- C9: Determinism across runs — the only run-to-run variation in the
source is the iteration order of `HashMap` keys in the filter pass (the
structural hash is fixed-key, and everything else is sequential and
deterministic).  Whatever order the key snapshot is processed in, the
resulting mapping is the same: every signature key is bound to the same
family, hence key sets and per-signature member counts coincide between
any two runs. -/
theorem determinism_order_independent (m : Nat) (o1 o2 : List String)
    (h1 : o1.Perm (generate_store m).keys) (h2 : o2.Perm (generate_store m).keys)
    (key : String) :
    (filter_store m o1 (generate_store m)).lookup key
      = (filter_store m o2 (generate_store m)).lookup key := by
  have hnd : NodupKeys (generate_store m) := (reachable_WF (generate_store_reachable m)).1
  have hnd1 : o1.Nodup := h1.nodup_iff.2 hnd
  have hnd2 : o2.Nodup := h2.nodup_iff.2 hnd
  rw [filter_store_lookup m o1 _ hnd1 key, filter_store_lookup m o2 _ hnd2 key]
  by_cases hk : key ∈ (generate_store m).keys
  · rw [if_pos (h1.mem_iff.2 hk), if_pos (h2.mem_iff.2 hk)]
  · rw [if_neg (fun hc => hk (h1.mem_iff.1 hc)), if_neg (fun hc => hk (h2.mem_iff.1 hc))]

theorem determinism_witness :
    ((generate_store 2).keys.reverse.Perm (generate_store 2).keys) ∧
    ((generate_store 2).keys.Perm (generate_store 2).keys) ∧
    (filter_store 2 (generate_store 2).keys.reverse (generate_store 2)).lookup
        (wlsig ⟨2, []⟩)
      = (filter_store 2 (generate_store 2).keys (generate_store 2)).lookup
        (wlsig ⟨2, []⟩) :=
  ⟨(generate_store 2).keys.reverse_perm, List.Perm.refl _,
    determinism_order_independent 2 _ _ ((generate_store 2).keys.reverse_perm)
      (List.Perm.refl _) (wlsig ⟨2, []⟩)⟩

/-- C3: Filter correctness — whenever `generate_graphs` returns a mapping,
every graph in every returned family has node count exactly `max_size`,
and every returned family has at least two members.  (Families sharing a
signature key are size-homogeneous because the modelled hash exposes the
node count; the source relies on the hash not colliding across sizes.) -/
theorem filter_correctness (m : Nat) (res : Store) (h : generate_graphs m = some res) :
    ∀ p ∈ res, (∀ g ∈ p.2, g.n = m) ∧ 2 ≤ p.2.length := by
  unfold generate_graphs at h
  by_cases hm : m < 1
  · rw [if_pos hm] at h
    cases h
  · rw [if_neg hm] at h
    have hres : filter_store m (generate_store m).keys (generate_store m) = res := by
      injection h
    subst hres
    obtain ⟨hnd, hsig, hbok⟩ := reachable_WF (generate_store_reachable m)
    intro p hp
    have hndres : NodupKeys (filter_store m (generate_store m).keys (generate_store m)) :=
      filter_store_nodup m _ hnd
    have hlk := lookup_of_mem_nodup hndres hp
    rw [filter_store_lookup m _ _ hnd] at hlk
    by_cases hkin : p.1 ∈ (generate_store m).keys
    · rw [if_pos hkin] at hlk
      cases hbl : (generate_store m).lookup p.1 with
      | none =>
        rw [hbl] at hlk
        cases hlk
      | some bucket =>
        rw [hbl] at hlk
        have hf : filterResultB m bucket = some p.2 := hlk
        unfold filterResultB at hf
        by_cases hlen : bucket.length ≤ 1
        · rw [if_pos hlen] at hf
          cases hf
        · rw [if_neg hlen] at hf
          by_cases hemp : (bucket.filter (fun g => g.n == m)).isEmpty
          · rw [if_pos hemp] at hf
            cases hf
          · rw [if_neg hemp] at hf
            have hp2 : bucket.filter (fun g => g.n == m) = p.2 := by injection hf
            constructor
            · intro g hg
              rw [← hp2] at hg
              have h1 := List.of_mem_filter hg
              simpa using h1
            · have hmem := mem_of_lookup hbl
              have hne : bucket.filter (fun g => g.n == m) ≠ [] := by
                intro hc
                rw [hc] at hemp
                simp at hemp
              obtain ⟨g0, hg0⟩ := List.exists_mem_of_ne_nil _ hne
              have hg0b : g0 ∈ bucket := List.mem_of_mem_filter hg0
              have hg0m : g0.n = m := by simpa using List.of_mem_filter hg0
              have hall : ∀ g ∈ bucket, g.n = m := by
                intro g hg
                have h1 : wlsig g = p.1 := hsig _ hmem g hg
                have h2 : wlsig g0 = p.1 := hsig _ hmem g0 hg0b
                have h3 := wlsig_node_count (h1.trans h2.symm)
                exact h3.trans hg0m
              have hfe : bucket.filter (fun g => g.n == m) = bucket :=
                List.filter_eq_self.2 (fun g hg => by simp [hall g hg])
              rw [← hp2, hfe]
              omega
    · rw [if_neg hkin, lookup_eq_none_iff.2 hkin] at hlk
      cases hlk

theorem filter_correctness_witness :
    generate_graphs 1 = some [] ∧
    ∀ p ∈ ([] : Store), (∀ g ∈ p.2, g.n = 1) ∧ 2 ≤ p.2.length := by
  have h : generate_graphs 1 = some [] := by decide
  exact ⟨h, filter_correctness 1 [] h⟩

/-- C5 counterexample: the claim of exactly 2 distinct signature keys
before filtering is false for `generate_graphs 2` — the single-node
starting graph is also retained in the store. -/
theorem unfiltered_count_counterexample : ¬ ((generate_store 2).keys.length = 2) := by
  decide

/-- C5 (amended): immediately before the final filtering step, the store
built by `generate_graphs 2` contains exactly 3 distinct signature keys —
the 1-node graph's key plus the two 2-node classes (edge, no-edge). -/
theorem unfiltered_count_amended :
    (generate_store 2).keys.length = 3 ∧ (generate_store 2).keys.Nodup := by
  refine ⟨by decide, by decide⟩

/-- C6: Enumeration completeness at small sizes — `generate_graphs 1`
returns the empty mapping; before filtering, the store of `generate_graphs
3` retains exactly 4 pairwise non-isomorphic graphs on 3 nodes and the
store of `generate_graphs 4` retains exactly 11 pairwise non-isomorphic
graphs on 4 nodes. -/
theorem enumeration_small_sizes :
    generate_graphs 1 = some [] ∧
    (((generate_store 3).allGraphs.filter (fun g => g.n == 3)).length = 4 ∧
      ((generate_store 3).allGraphs.filter (fun g => g.n == 3)).Pairwise
        (fun g1 g2 => is_isomorphic g1 g2 = false)) ∧
    (((generate_store 4).allGraphs.filter (fun g => g.n == 4)).length = 11 ∧
      ((generate_store 4).allGraphs.filter (fun g => g.n == 4)).Pairwise
        (fun g1 g2 => is_isomorphic g1 g2 = false)) := by
  refine ⟨by decide, ⟨by decide, ?_⟩, ⟨by decide, ?_⟩⟩
  · exact (reachable_pairwise_noniso (generate_store_reachable 3)).sublist
      (List.filter_sublist _)
  · exact (reachable_pairwise_noniso (generate_store_reachable 4)).sublist
      (List.filter_sublist _)
